import Mathlib

/-!
# ESPress0x20: the relay-feedback PID tuner (`PID_Tuner.cpp`, `PID_Tuner.h`)

The C++ class `PID_Tuner` is embedded as a record and its member functions as
functions on that record.

* `float` values are rationals (no NaN or infinity). Comparisons of two
  stored values are exact in the code as well. The convergence test of lines
  108-113 is embedded with the rounding of every operation: `f32` and `f64`
  round to the nearest binary32 and binary64 value, ties to even. The bounds
  `setpoint ± noise_band` of the relay are kept exact: with the values that
  the constructor and `reset` assign they are 215.5 and 213.5, which binary32
  represents. The gains `Ku` and `Pu`, which no branch reads, are kept as the
  exact values of the expressions that the code stores rounded. A division by
  zero has Lean's value `0`.
* `unsigned long` is 32 bits wide (ESP8266 / ESP32): differences of clock
  readings are taken modulo `2^32`, and the `int` operand of the rate gate is
  converted to `unsigned long` as C++ does.
* `int` fields are integers; the arrays `input_ring[100]` and `peaks[10]` are
  maps from the `int` index to the cell's contents.
* the pointers `input` and `output` are represented by the contents of the
  slots they point to: `input` is written by the environment between calls,
  `output` is the actuation slot.
* `millis()` is an argument `now` of the member function that calls it.
-/

namespace PIDTuner

/-- The fields of `class PID_Tuner` (PID_Tuner.h), with `input` and `output`
holding the contents of the two bound slots. -/
structure PID_Tuner where
  input : ℚ
  output : ℚ
  setpoint : ℚ
  noise_band : ℚ
  sample_time : ℤ
  finished : Bool
  ts_last : ℕ
  input_max : ℚ
  input_min : ℚ
  input_ring : ℤ → ℚ
  input_valid : Bool
  input_idx : ℤ
  output_high : ℚ
  output_low : ℚ
  peak_type : ℤ
  peaks : ℤ → ℚ
  peak_count : ℤ
  ts_ultimate : ℕ
  ts_penultimate : ℕ
  Ku : ℚ
  Pu : ℚ

/-- The difference `a - b` of two `unsigned long` values: modulo `2^32`. -/
def u32sub (a b : ℕ) : ℕ := (((a : ℤ) - (b : ℤ)) % 4294967296).toNat

/-- Conversion of an `int` to `unsigned long` (the usual arithmetic conversion
applied to `sample_time` in `(now - ts_last) < sample_time`). -/
def toU32 (i : ℤ) : ℕ := (i % 4294967296).toNat

/-- The Arduino `abs` on a `float`. -/
def absF (x : ℚ) : ℚ := if x > 0 then x else -x

/-- Assignment `a[i] = v` to an array cell. -/
def store (a : ℤ → ℚ) (i : ℤ) (v : ℚ) : ℤ → ℚ := fun j => if j = i then v else a j

/-- The member function `PID_Tuner::reset` (PID_Tuner.cpp lines 16-31). -/
def reset (s : PID_Tuner) (now : ℕ) : PID_Tuner :=
  { s with
    ts_last := now
    finished := false
    peak_type := 0
    peak_count := 0
    input_valid := false
    input_max := s.input
    input_min := s.input
    setpoint := 214.5
    output_high := 500
    output_low := 0
    input_idx := 0
    Ku := 1.0
    Pu := 1.0 }

/-- The constructor `PID_Tuner::PID_Tuner` (lines 8-14) run on the object's
memory `mem`, whose fields other than the two bound slots are arbitrary. -/
def construct (mem : PID_Tuner) (now : ℕ) : PID_Tuner :=
  reset { mem with noise_band := 1.0, sample_time := 1000 } now

/-- One pass of the body of the loop at lines 64-71: `acc` is
`(is_max, is_min)` before the pass for index `i`. -/
def scanStep (ring : ℤ → ℚ) (cur : ℚ) (acc : Bool × Bool) (i : ℕ) : Bool × Bool :=
  (if acc.1 then decide (cur > ring (i : ℤ)) else acc.1,
   if acc.2 then decide (cur < ring (i : ℤ)) else acc.2)

/-- The loop `for (int i = 0; i < 100; i++)` of lines 62-71: the values of
`(is_max, is_min)` after it. -/
def scanRing (ring : ℤ → ℚ) (cur : ℚ) : Bool × Bool :=
  (List.range 100).foldl (scanStep ring cur) (true, true)

/-- Lines 45-52: `ts_last = now`, and the running extrema are widened by the
sample. -/
def updateExtrema (s : PID_Tuner) (now : ℕ) (cur : ℚ) : PID_Tuner :=
  let s1 := { s with ts_last := now }
  let s2 := if cur > s1.input_max then { s1 with input_max := cur } else s1
  if cur < s2.input_min then { s2 with input_min := cur } else s2

/-- Lines 54-59: the relay. -/
def relay (s : PID_Tuner) (cur : ℚ) : PID_Tuner :=
  if cur > s.setpoint + s.noise_band then { s with output := s.output_low }
  else if cur < s.setpoint - s.noise_band then { s with output := s.output_high }
  else s

/-- Lines 72-76: the sample is stored in the ring and the index advanced. -/
def pushSample (s : PID_Tuner) (cur : ℚ) : PID_Tuner :=
  let s1 := { s with input_ring := store s.input_ring s.input_idx cur,
                     input_idx := s.input_idx + 1 }
  if s1.input_idx ≥ 100 then { s1 with input_valid := true, input_idx := 0 } else s1

/-- Lines 82-98: the peak bookkeeping. -/
def peakTransition (s : PID_Tuner) (now : ℕ) (cur : ℚ) (is_max is_min : Bool) : PID_Tuner :=
  if is_max then
    let s1 := if s.peak_type = -1 then { s with ts_penultimate := s.ts_ultimate } else s
    { s1 with peak_type := 1, ts_ultimate := now, peaks := store s1.peaks s1.peak_count cur }
  else if is_min then
    let s1 := if s.peak_type = 1 then { s with peak_count := s.peak_count + 1 } else s
    let s2 := { s1 with peak_type := -1 }
    if s2.peak_count < 10 then { s2 with peaks := store s2.peaks s2.peak_count cur } else s2
  else s

/-- The integer nearest to `q`, the even one of the two when `q` is halfway
between them. -/
def roundEven (q : ℚ) : ℤ :=
  if q - ⌊q⌋ < 1 / 2 then ⌊q⌋
  else if 1 / 2 < q - ⌊q⌋ then ⌊q⌋ + 1
  else if ⌊q⌋ % 2 = 0 then ⌊q⌋ else ⌊q⌋ + 1

/-- Rounding to the nearest value of a binary floating-point format with
precision `P` and least normal exponent `emin` (IEEE 754 round to nearest,
ties to even, gradual underflow): `x` is rounded to a multiple of the unit in
the last place of its binade. Overflow is not modelled: there is no
infinity. -/
def roundFloat (P : ℕ) (emin : ℤ) (x : ℚ) : ℚ :=
  roundEven (x / (2 : ℚ) ^ (max (Int.log 2 |x|) emin - ((P : ℤ) - 1))) *
    (2 : ℚ) ^ (max (Int.log 2 |x|) emin - ((P : ℤ) - 1))

/-- Rounding to `float` (binary32). -/
def f32 (x : ℚ) : ℚ := roundFloat 24 (-126) x

/-- Rounding to `double` (binary64). -/
def f64 (x : ℚ) : ℚ := roundFloat 53 (-1022) x

/-- The local `separation` of lines 108-112: two `float` subtractions, their
absolute values, a `float` addition and a `float` division by 2. -/
def separation (s : PID_Tuner) : ℚ :=
  f32 (f32 (absF (f32 (s.peaks (s.peak_count - 1) - s.peaks (s.peak_count - 2))) +
    absF (f32 (s.peaks (s.peak_count - 2) - s.peaks (s.peak_count - 3)))) / 2)

/-- The right-hand side `0.05 * (input_max - input_min)` of line 113: a `float`
subtraction, converted to `double` and multiplied by the `double` nearest to
0.05. -/
def threshold (s : PID_Tuner) : ℚ :=
  f64 (f64 0.05 * f32 (s.input_max - s.input_min))

/-- Lines 100-117: the gains and the convergence test. -/
def recompute (s : PID_Tuner) (is_max is_min : Bool) : PID_Tuner :=
  if is_max || is_min then
    let s1 := { s with Ku := 4 * (s.output_high - s.output_low) /
                              ((s.input_max - s.input_min) * 3.14159) }
    if s1.peak_count > 2 then
      let s2 := { s1 with Pu := (u32sub s1.ts_ultimate s1.ts_penultimate : ℚ) / 1000 }
      if separation s2 < threshold s2 then
        { s2 with finished := true }
      else s2
    else s1
  else s

/-- Lines 119-121: the failsafe. -/
def failsafe (s : PID_Tuner) : PID_Tuner :=
  if s.peak_count ≥ 10 then { s with finished := true } else s

/-- Lines 45-123 of `PID_Tuner::run`: what a call does once it is past the two
early returns. -/
def sample (s : PID_Tuner) (now : ℕ) : Bool × PID_Tuner :=
  let current_input := s.input
  let s1 := updateExtrema s now current_input
  let s2 := relay s1 current_input
  let m := scanRing s2.input_ring current_input
  let s3 := pushSample s2 current_input
  if !s3.input_valid then (false, s3)
  else
    let s4 := peakTransition s3 now current_input m.1 m.2
    let s5 := recompute s4 m.1 m.2
    let s6 := failsafe s5
    (s6.finished, s6)

/-- The member function `PID_Tuner::run` (lines 33-124): the returned `bool`
and the object after the call. -/
def run (s : PID_Tuner) (now : ℕ) : Bool × PID_Tuner :=
  if s.finished then (true, s)
  else if u32sub now s.ts_last < toU32 s.sample_time then (false, s)
  else sample s now

/-- A processed step: the call of `run` gets past both early returns (the
tuner is not terminated and the rate gate lets the sample through). -/
def Processed (s : PID_Tuner) (now : ℕ) : Prop :=
  s.finished = false ∧ toU32 s.sample_time ≤ u32sub now s.ts_last

/-- The value of `is_max` after the loop of lines 62-71 in a processed call of
`run` on `s`. -/
def isMax (s : PID_Tuner) : Bool := (scanRing s.input_ring s.input).1

/-- The value of `is_min` after the loop of lines 62-71 in a processed call of
`run` on `s`. -/
def isMin (s : PID_Tuner) : Bool := (scanRing s.input_ring s.input).2

/-- The configuration fields, which `run` never assigns. -/
def config (s : PID_Tuner) : ℚ × ℚ × ℤ × ℚ × ℚ :=
  (s.setpoint, s.noise_band, s.sample_time, s.output_high, s.output_low)

/-- The member function `PID_Tuner::get_p` (lines 126-129): the returned value
and the object after the call. -/
def get_p (s : PID_Tuner) : ℚ × PID_Tuner := (0.6 * s.Ku, s)

/-- The member function `PID_Tuner::get_i` (lines 131-134). -/
def get_i (s : PID_Tuner) : ℚ × PID_Tuner := (1.2 * s.Ku / s.Pu, s)

/-- The member function `PID_Tuner::get_d` (lines 136-139). -/
def get_d (s : PID_Tuner) : ℚ × PID_Tuner := (0.075 * s.Ku * s.Pu, s)

/-- The environment writes the process value `x` in the input slot. -/
def setInput (s : PID_Tuner) (x : ℚ) : PID_Tuner := { s with input := x }

/-- The caller writes `v` in the actuation slot. -/
def setOutput (s : PID_Tuner) (v : ℚ) : PID_Tuner := { s with output := v }

/-- Feeding the tuner: the object after `k` calls of `run`, where before call
number `j` (counted from 0) the environment has put the process value `xs j`
in the input slot and the clock reads `ts j`. -/
def feed (s : PID_Tuner) (ts : ℕ → ℕ) (xs : ℕ → ℚ) : ℕ → PID_Tuner
  | 0 => s
  | k + 1 => (run (setInput (feed s ts xs k) (xs k)) (ts k)).2

/-- The value returned by call number `k` of `feed`. -/
def feedRet (s : PID_Tuner) (ts : ℕ → ℕ) (xs : ℕ → ℚ) (k : ℕ) : Bool :=
  (run (setInput (feed s ts xs k) (xs k)) (ts k)).1

/-- The states a tuner object can be in: it is made by the constructor, its
member functions `reset` and `run` are called, and between calls the
environment writes the two bound slots. -/
inductive Reachable : PID_Tuner → Prop
  | construct (mem : PID_Tuner) (now : ℕ) : Reachable (construct mem now)
  | reset (s : PID_Tuner) (now : ℕ) : Reachable s → Reachable (reset s now)
  | run (s : PID_Tuner) (now : ℕ) : Reachable s → Reachable (run s now).2
  | setInput (s : PID_Tuner) (x : ℚ) : Reachable s → Reachable (setInput s x)
  | setOutput (s : PID_Tuner) (v : ℚ) : Reachable s → Reachable (setOutput s v)

/-- The range of the C++ type `int` (32 bits). -/
def IntRange (i : ℤ) : Prop := -2147483648 ≤ i ∧ i < 2147483648

/-- An object's memory used for concrete instances: every numeric field is
`0`, every flag is clear and every cell of the two arrays holds `r`. -/
def blank (r : ℚ) : PID_Tuner :=
  { input := 0, output := 0, setpoint := 0, noise_band := 0, sample_time := 0,
    finished := false, ts_last := 0, input_max := 0, input_min := 0,
    input_ring := fun _ => r, input_valid := false, input_idx := 0,
    output_high := 0, output_low := 0, peak_type := 0, peaks := fun _ => r,
    peak_count := 0, ts_ultimate := 0, ts_penultimate := 0, Ku := 0, Pu := 0 }

/-- The object of a processed call of `run` on `s` when it reaches line 78:
extrema widened, relay applied, sample stored in the ring. -/
def pushed (s : PID_Tuner) (now : ℕ) : PID_Tuner :=
  pushSample (relay (updateExtrema s now s.input) s.input) s.input

/-- The object of a processed call of `run` on `s` when it reaches line 100,
after the peak bookkeeping of lines 82-98. -/
def transitioned (s : PID_Tuner) (now : ℕ) : PID_Tuner :=
  peakTransition (pushed s now) now s.input (isMax s) (isMin s)

/-- What the constructor establishes and `reset`, `run` and the environment
keep: the configuration defaults, the ring index within `input_ring[100]`,
and a peak count that is at most 10 and below 10 until the tuner
terminates. -/
def Inv (s : PID_Tuner) : Prop :=
  config s = (214.5, 1.0, 1000, 500, 0) ∧
  0 ≤ s.input_idx ∧ s.input_idx < 100 ∧
  0 ≤ s.peak_count ∧ s.peak_count ≤ 10 ∧
  (s.finished = false → s.peak_count < 10)

/-- A tuner in the middle of a run, for concrete instances: window valid, ring
and peak cells all 10, last extremum a maximum, `n` completed cycles, running
extrema 100 and -100, and the sample -5 in the input slot. -/
def midRun (n : ℤ) : PID_Tuner :=
  { blank 10 with sample_time := 1000, input_valid := true, input_idx := 5, peak_type := 1,
                  peak_count := n, input_max := 100, input_min := -100, input := -5,
                  output_high := 500 }

/-- The object as call number `k` of `feed` finds it: `k` calls made and the
process value `xs k` in the input slot. -/
def before (s : PID_Tuner) (ts : ℕ → ℕ) (xs : ℕ → ℚ) (k : ℕ) : PID_Tuner :=
  setInput (feed s ts xs k) (xs k)

/-- The clock reading stored in `ts_last` when call number `k` is made, if
every earlier call was processed: the reading `t0` of `reset` or that of the
previous call. -/
def prevTime (t0 : ℕ) (ts : ℕ → ℕ) (k : ℕ) : ℕ := if k = 0 then t0 else ts (k - 1)

/-- One sample per processed step: each of the first `n` clock readings is at
least the sample period after the previous one, so that no call is stopped by
the rate gate. -/
def Paced (period : ℤ) (t0 : ℕ) (ts : ℕ → ℕ) (n : ℕ) : Prop :=
  ∀ k, k < n → toU32 period ≤ u32sub (ts k) (prevTime t0 ts k)

/-- A sequence `xs 0, ..., xs (n-1)` that is strictly increasing up to index
`p` and strictly decreasing after it. -/
def UpDown (xs : ℕ → ℚ) (p n : ℕ) : Prop :=
  p < n ∧ (∀ i j, i < j → j ≤ p → xs i < xs j) ∧ (∀ i j, p ≤ i → i < j → j < n → xs j < xs i)

/-- Call number `k` of `feed` classifies its sample as a window maximum: the
step is processed, the window is valid at line 78 and `is_max` holds, so that
the branch of lines 83-88 is taken. -/
def MaxStep (s : PID_Tuner) (ts : ℕ → ℕ) (xs : ℕ → ℚ) (k : ℕ) : Prop :=
  Processed (before s ts xs k) (ts k) ∧
  (pushed (before s ts xs k) (ts k)).input_valid = true ∧
  isMax (before s ts xs k) = true

/-- Call number `k` of `feed` classifies its sample as a window minimum: the
step is processed, the window is valid at line 78 and `is_min` holds. -/
def MinStep (s : PID_Tuner) (ts : ℕ → ℕ) (xs : ℕ → ℚ) (k : ℕ) : Prop :=
  Processed (before s ts xs k) (ts k) ∧
  (pushed (before s ts xs k) (ts k)).input_valid = true ∧
  isMin (before s ts xs k) = true

/-- The running maximum after `k` processed samples, as lines 47-49 compute
it from the seed. -/
def runMax (seed : ℚ) (xs : ℕ → ℚ) : ℕ → ℚ
  | 0 => seed
  | k + 1 => if xs k > runMax seed xs k then xs k else runMax seed xs k

/-- The running minimum after `k` processed samples, as lines 50-52 compute
it from the seed. -/
def runMin (seed : ℚ) (xs : ℕ → ℚ) : ℕ → ℚ
  | 0 => seed
  | k + 1 => if xs k < runMin seed xs k then xs k else runMin seed xs k

/-- A concrete input sequence: 0, 1, ..., 101 and then 100, 99, ...; it rises
to index 101 and falls after it. -/
def risingFalling (k : ℕ) : ℚ := if k ≤ 101 then (k : ℚ) else 202 - (k : ℚ)

/-- A concrete input sequence: 1, 2, 3, ... -/
def rising (k : ℕ) : ℚ := (k : ℚ) + 1

/-- Concrete clock readings: call number `k` is made at 1000·(k+1) ms. -/
def everySecond (k : ℕ) : ℕ := 1000 * (k + 1)

/-- The ring cell written by the latest processed step, given the index of
the cell the next one will write. -/
def prevIdx (i : ℤ) : ℤ := if i = 0 then 99 else i - 1

/-- The ring index is within the array, and unless no sample has been stored
since `reset`, the sample stored last lies between the running extrema. -/
def Seeded (s : PID_Tuner) : Prop :=
  0 ≤ s.input_idx ∧ s.input_idx < 100 ∧
  ((s.input_idx = 0 ∧ s.input_valid = false) ∨
    (s.input_min ≤ s.input_ring (prevIdx s.input_idx) ∧
      s.input_ring (prevIdx s.input_idx) ≤ s.input_max))

/-- The call of `run` on `s` reaches the assignment to `Ku` at line 101: the
step is processed, the window is valid at line 78, and `is_max || is_min`
holds. -/
def RecomputesKu (s : PID_Tuner) (now : ℕ) : Prop :=
  Processed s now ∧ (pushed s now).input_valid = true ∧ (isMax s = true ∨ isMin s = true)

/-- The tuner is as `reset` left it apart from the window, and the sample
stored last (if any) is `c`: not terminated, gains 1, no completed cycle. -/
def Quiet (c : ℚ) (s : PID_Tuner) : Prop :=
  s.finished = false ∧ s.Ku = 1 ∧ s.Pu = 1 ∧ s.peak_count = 0 ∧
  0 ≤ s.input_idx ∧ s.input_idx < 100 ∧
  ((s.input_idx = 0 ∧ s.input_valid = false) ∨ s.input_ring (prevIdx s.input_idx) = c)

/-- Whether a call is processed can be computed from the object and the clock
reading. -/
instance instDecidableProcessed (s : PID_Tuner) (now : ℕ) : Decidable (Processed s now) :=
  inferInstanceAs (Decidable (s.finished = false ∧ toU32 s.sample_time ≤ u32sub now s.ts_last))

/-- The process values read by the processed calls among the first `k` calls
of `feed`, latest first; rate-gated calls and calls on a terminated tuner read
nothing. -/
def seen (s : PID_Tuner) (ts : ℕ → ℕ) (xs : ℕ → ℚ) : ℕ → List ℚ
  | 0 => []
  | k + 1 =>
    if Processed (before s ts xs k) (ts k) then xs k :: seen s ts xs k else seen s ts xs k

/-- The indices of `peaks[]` written by lines 82-98, where `s` is the object
at line 82: `peaks[peak_count]` on a maximum (line 88), and on a minimum
`peaks[peak_count]` at the count after line 91 if it is below 10 (line 96). -/
def peakTransitionIdx (s : PID_Tuner) (is_max is_min : Bool) : List ℤ :=
  if is_max then [s.peak_count]
  else if is_min then
    let c := if s.peak_type = 1 then s.peak_count + 1 else s.peak_count
    if c < 10 then [c] else []
  else []

/-- The indices of `peaks[]` read by lines 100-117, where `s` is the object at
line 100: those of `separation` (lines 109-111) when there is an extremum
event and the count exceeds 2. -/
def recomputeIdx (s : PID_Tuner) (is_max is_min : Bool) : List ℤ :=
  if is_max || is_min then
    if s.peak_count > 2 then
      [s.peak_count - 1, s.peak_count - 2, s.peak_count - 2, s.peak_count - 3]
    else []
  else []

/-- The indices of `peaks[]` that a call of `run` on `s` accesses. -/
def peakAccesses (s : PID_Tuner) (now : ℕ) : List ℤ :=
  if Processed s now then
    if (pushed s now).input_valid then
      peakTransitionIdx (pushed s now) (isMax s) (isMin s) ++
        recomputeIdx (transitioned s now) (isMax s) (isMin s)
    else []
  else []

/-- The indices of `input_ring[]` that a call of `run` on `s` accesses: those
read by the loop of lines 64-71 and the one written at line 72. -/
def ringAccesses (s : PID_Tuner) (now : ℕ) : List ℤ :=
  if Processed s now then (List.range 100).map (fun i : ℕ => (i : ℤ)) ++ [s.input_idx]
  else []

/-- Provenance of the peak record: with `V` the values and `T` the clock
readings recorded so far, the count is not negative, a positive count comes
with peak type ±1, every peak cell below the count holds a value of `V`, so
does the cell at the count when the last extremum was a maximum, the
ultimate-max time is in `T` once a maximum has been seen, and the
penultimate-max time is in `T` once a maximum has followed a completed
cycle. -/
def Prov (V : ℚ → Prop) (T : ℕ → Prop) (s : PID_Tuner) : Prop :=
  0 ≤ s.peak_count ∧
  (1 ≤ s.peak_count → s.peak_type = 1 ∨ s.peak_type = -1) ∧
  (∀ i, 0 ≤ i → i < s.peak_count → V (s.peaks i)) ∧
  (s.peak_type = 1 → V (s.peaks s.peak_count)) ∧
  (s.peak_type = 1 ∨ 1 ≤ s.peak_count → T s.ts_ultimate) ∧
  (2 ≤ s.peak_count ∨ (1 ≤ s.peak_count ∧ s.peak_type = 1) → T s.ts_penultimate)

/-- The object `s` with the peak record and the two maximum timestamps
replaced by `p`, `u` and `v`. -/
def withPeaks (s : PID_Tuner) (p : ℤ → ℚ) (u v : ℕ) : PID_Tuner :=
  { s with peaks := p, ts_ultimate := u, ts_penultimate := v }

/-- What a call of `run` on `s` does to a peak record `p` and maximum
timestamps `u`, `v` (lines 82-98): the branch taken depends on the rest of
the object only. -/
def peakMemStep (s : PID_Tuner) (now : ℕ) (p : ℤ → ℚ) (u v : ℕ) : (ℤ → ℚ) × ℕ × ℕ :=
  if Processed s now ∧ (pushed s now).input_valid = true then
    if isMax s = true then
      (store p s.peak_count s.input, now, if s.peak_type = -1 then u else v)
    else if isMin s = true then
      (if (if s.peak_type = 1 then s.peak_count + 1 else s.peak_count) < 10 then
          store p (if s.peak_type = 1 then s.peak_count + 1 else s.peak_count) s.input
        else p, u, v)
    else (p, u, v)
  else (p, u, v)

/-- The peak record `p` and timestamps `u`, `v` agree with those of `s`
wherever the current run has written them: the cells below the count, the
cell at the count when the last extremum was a maximum, the ultimate-max time
once a maximum has been seen, the penultimate-max time once a maximum has
followed a completed cycle. -/
def PeakAgree (s : PID_Tuner) (p : ℤ → ℚ) (u v : ℕ) : Prop :=
  0 ≤ s.peak_count ∧
  (1 ≤ s.peak_count → s.peak_type = 1 ∨ s.peak_type = -1) ∧
  (∀ i, 0 ≤ i → i < s.peak_count → s.peaks i = p i) ∧
  (s.peak_type = 1 → s.peaks s.peak_count = p s.peak_count) ∧
  (s.peak_type = 1 ∨ 1 ≤ s.peak_count → s.ts_ultimate = u) ∧
  (2 ≤ s.peak_count ∨ (1 ≤ s.peak_count ∧ s.peak_type = 1) → s.ts_penultimate = v)

/-- A concrete input sequence of binary32 values: 265.1f, then 100 a hundred
times, then 200, 50, 213.25, 40, 226.5 and 30. -/
def tieSamples (k : ℕ) : ℚ :=
  if k = 0 then f32 265.1
  else if k ≤ 100 then 100
  else if k = 101 then 200
  else if k = 102 then 50
  else if k = 103 then 213.25
  else if k = 104 then 40
  else if k = 105 then 226.5
  else 30

/-- The object as call number 106 (the 107th call, at clock reading 107000)
finds it, when a tuner constructed and reset with 0.1f in the input slot is
fed `tieSamples`, one sample per second: the sample 30 is in the input
slot. -/
def tieCall : PID_Tuner :=
  before (reset (construct (setInput (blank 0) (f32 0.1)) 0) 0) everySecond tieSamples 106

end PIDTuner

/-!
# The touch button (`SpriteButton.cpp`, `SpriteButton.h`)

The class `SpriteButton` is embedded like the tuner. The sprite `fb` and the
callback `cb` are code outside the class: the record keeps whether each
pointer is non-null, and `press` reports whether it calls the callback, which
is taken not to touch the button. The label and its font, used only by
`drawButton`, are left out, and so is `drawButton`, which only calls the
graphics library. `int16_t` and `uint16_t` operands are promoted to the 32-bit
`int` before they are added: the sum is written with its wrap to 32 bits.
-/

namespace Sprite

/-- The fields of `class SpriteButton` (SpriteButton.h): `fb` and `cb` say
whether the pointer is non-null, `x`, `y` are `int16_t`, `width`, `height` and
the two colours `uint16_t`, `state_start` is `unsigned long`. -/
structure SpriteButton where
  fb : Bool
  cb : Bool
  x : ℤ
  y : ℤ
  width : ℕ
  height : ℕ
  color_outline : ℕ
  color_fill : ℕ
  state_current : Bool
  state_last : Bool
  state_start : ℕ

/-- The range of `int16_t`. -/
def Int16 (i : ℤ) : Prop := -32768 ≤ i ∧ i ≤ 32767

/-- The range of `uint16_t`. -/
def UInt16 (n : ℕ) : Prop := n ≤ 65535

/-- The value of an `int` expression whose exact value is `i`: wrapped to 32
bits, two's complement. -/
def wrap32 (i : ℤ) : ℤ := (i + 2147483648) % 4294967296 - 2147483648

/-- The constructor `SpriteButton::SpriteButton` (lines 7-10) on the object's
memory `mem`: only `fb` is assigned. -/
def newButton (mem : SpriteButton) : SpriteButton := { mem with fb := false }

/-- The member function `SpriteButton::needsInit` (lines 12-15). -/
def needsInit (b : SpriteButton) : Bool × SpriteButton := (!b.fb, b)

/-- The member function `SpriteButton::initButton` (lines 17-32); `sprite` and
`callback` say whether the pointer passed is non-null. -/
def initButton (b : SpriteButton) (sprite : Bool) (corner_x corner_y : ℤ) (w h : ℕ)
    (outline fill : ℕ) (callback : Bool) : SpriteButton :=
  { b with fb := sprite, cb := callback, x := corner_x, y := corner_y, width := w,
           height := h, color_outline := outline, color_fill := fill }

/-- The member function `SpriteButton::isPressed` (lines 82-85). -/
def isPressed (b : SpriteButton) : Bool × SpriteButton := (b.state_current, b)

/-- The member function `SpriteButton::justPressed` (lines 87-90). -/
def justPressed (b : SpriteButton) : Bool × SpriteButton :=
  (b.state_current && !b.state_last, b)

/-- The member function `SpriteButton::longPressed` (lines 92-95), `now` being
the value of `millis()`. -/
def longPressed (b : SpriteButton) (now : ℕ) : Bool × SpriteButton :=
  (b.state_current && decide (PIDTuner.u32sub now b.state_start > 500), b)

/-- The member function `SpriteButton::justReleased` (lines 97-100). -/
def justReleased (b : SpriteButton) : Bool × SpriteButton :=
  (!b.state_current && b.state_last, b)

/-- The member function `SpriteButton::press` (lines 64-80), `now` being the
value of `millis()`: the returned `bool`, the object after the call, and
whether the callback was called. -/
def press (b : SpriteButton) (press_x press_y : ℤ) (pressed : Bool) (now : ℕ) :
    Bool × SpriteButton × Bool :=
  let b1 := { b with state_last := b.state_current }
  let b2 :=
    if pressed && decide (press_x ≥ b1.x) && decide (press_x < wrap32 (b1.x + b1.width)) &&
        decide (press_y ≥ b1.y) && decide (press_y < wrap32 (b1.y + b1.height)) then
      { b1 with state_current := true }
    else { b1 with state_current := false }
  let b3 := if b2.state_current != b2.state_last then { b2 with state_start := now } else b2
  (b3.state_current, b3, b3.cb && (justPressed b3).1)

/-- A button for concrete instances: corner (10, 20), width 100, height 40,
not pressed. -/
def demoButton : SpriteButton :=
  initButton
    { fb := false, cb := false, x := 0, y := 0, width := 0, height := 0, color_outline := 0,
      color_fill := 0, state_current := false, state_last := false, state_start := 0 }
    true 10 20 100 40 65535 0 true

end Sprite

namespace PIDTuner

/-! ## The stages of a processed step -/

theorem run_of_processed (s : PID_Tuner) (now : ℕ) (h : Processed s now) :
    run s now = sample s now := by
  simp [run, h.1, not_lt.mpr h.2]

theorem updateExtrema_frame (s : PID_Tuner) (now : ℕ) (cur : ℚ) :
    config (updateExtrema s now cur) = config s ∧
    (updateExtrema s now cur).output = s.output ∧
    (updateExtrema s now cur).input_ring = s.input_ring ∧
    (updateExtrema s now cur).input_idx = s.input_idx ∧
    (updateExtrema s now cur).input_valid = s.input_valid ∧
    (updateExtrema s now cur).finished = s.finished ∧
    (updateExtrema s now cur).peak_count = s.peak_count ∧
    (updateExtrema s now cur).peak_type = s.peak_type := by
  unfold updateExtrema
  dsimp only
  split_ifs <;> simp [config]

theorem relay_frame (s : PID_Tuner) (cur : ℚ) :
    config (relay s cur) = config s ∧
    (relay s cur).input_ring = s.input_ring ∧
    (relay s cur).input_idx = s.input_idx ∧
    (relay s cur).input_valid = s.input_valid ∧
    (relay s cur).finished = s.finished ∧
    (relay s cur).peak_count = s.peak_count ∧
    (relay s cur).peak_type = s.peak_type ∧
    (relay s cur).input_max = s.input_max ∧
    (relay s cur).input_min = s.input_min := by
  unfold relay
  split_ifs <;> simp [config]

theorem pushSample_frame (s : PID_Tuner) (cur : ℚ) :
    config (pushSample s cur) = config s ∧
    (pushSample s cur).output = s.output ∧
    (pushSample s cur).finished = s.finished ∧
    (pushSample s cur).peak_count = s.peak_count ∧
    (pushSample s cur).peak_type = s.peak_type ∧
    (pushSample s cur).input_max = s.input_max ∧
    (pushSample s cur).input_min = s.input_min := by
  unfold pushSample
  dsimp only
  split_ifs <;> simp [config]

theorem peakTransition_frame (s : PID_Tuner) (now : ℕ) (cur : ℚ) (a b : Bool) :
    config (peakTransition s now cur a b) = config s ∧
    (peakTransition s now cur a b).output = s.output ∧
    (peakTransition s now cur a b).finished = s.finished ∧
    (peakTransition s now cur a b).input_valid = s.input_valid ∧
    (peakTransition s now cur a b).input_idx = s.input_idx ∧
    (peakTransition s now cur a b).input_ring = s.input_ring ∧
    (peakTransition s now cur a b).input_max = s.input_max ∧
    (peakTransition s now cur a b).input_min = s.input_min := by
  unfold peakTransition
  dsimp only
  split_ifs <;> simp [config]

theorem recompute_frame (s : PID_Tuner) (a b : Bool) :
    config (recompute s a b) = config s ∧
    (recompute s a b).output = s.output ∧
    (recompute s a b).input_valid = s.input_valid ∧
    (recompute s a b).input_idx = s.input_idx ∧
    (recompute s a b).input_ring = s.input_ring ∧
    (recompute s a b).peak_count = s.peak_count ∧
    (recompute s a b).peak_type = s.peak_type ∧
    (recompute s a b).peaks = s.peaks ∧
    (recompute s a b).input_max = s.input_max ∧
    (recompute s a b).input_min = s.input_min := by
  unfold recompute
  dsimp only
  split_ifs <;> simp [config]

theorem failsafe_frame (s : PID_Tuner) :
    config (failsafe s) = config s ∧
    (failsafe s).output = s.output ∧
    (failsafe s).input_valid = s.input_valid ∧
    (failsafe s).input_idx = s.input_idx ∧
    (failsafe s).input_ring = s.input_ring ∧
    (failsafe s).peak_count = s.peak_count ∧
    (failsafe s).peak_type = s.peak_type ∧
    (failsafe s).peaks = s.peaks ∧
    (failsafe s).input_max = s.input_max ∧
    (failsafe s).input_min = s.input_min ∧
    (failsafe s).Ku = s.Ku ∧
    (failsafe s).Pu = s.Pu := by
  unfold failsafe
  split_ifs <;> simp [config]

theorem sample_config (s : PID_Tuner) (now : ℕ) : config (sample s now).2 = config s := by
  unfold sample
  dsimp only
  split_ifs
  · rw [(pushSample_frame _ _).1, (relay_frame _ _).1, (updateExtrema_frame _ _ _).1]
  · rw [(failsafe_frame _).1, (recompute_frame _ _ _).1, (peakTransition_frame _ _ _ _ _).1,
      (pushSample_frame _ _).1, (relay_frame _ _).1, (updateExtrema_frame _ _ _).1]

theorem run_config (s : PID_Tuner) (now : ℕ) : config (run s now).2 = config s := by
  unfold run
  split_ifs
  · rfl
  · rfl
  · exact sample_config s now

theorem sample_output (s : PID_Tuner) (now : ℕ) :
    (sample s now).2.output = (relay (updateExtrema s now s.input) s.input).output := by
  unfold sample
  dsimp only
  split_ifs
  · rw [(pushSample_frame _ _).2.1]
  · rw [(failsafe_frame _).2.1, (recompute_frame _ _ _).2.1, (peakTransition_frame _ _ _ _ _).2.1,
      (pushSample_frame _ _).2.1]

/-! ## Terminated state and rate gate -/

theorem run_of_finished (s : PID_Tuner) (now : ℕ) (h : s.finished = true) :
    run s now = (true, s) := by
  simp [run, h]

theorem feed_of_finished (s : PID_Tuner) (ts : ℕ → ℕ) (xs : ℕ → ℚ) (h : s.finished = true) :
    ∀ k, setInput (feed s ts xs k) s.input = s ∧ (feed s ts xs k).finished = true
  | 0 => ⟨rfl, h⟩
  | k + 1 => by
    obtain ⟨h1, h2⟩ := feed_of_finished s ts xs h k
    have h3 : (setInput (feed s ts xs k) (xs k)).finished = true := h2
    constructor
    · rw [feed, run_of_finished _ _ h3]
      exact h1
    · rw [feed, run_of_finished _ _ h3]
      exact h3

/-- C1. The terminated state is absorbing: with the termination flag set,
`run` returns `true` and leaves the whole object and the actuation slot as they
were, at every clock value and process value; after any number of further
calls the object still differs from the original at most in the process value
the environment wrote in the input slot, every call returned `true`, and
`get_p`, `get_i`, `get_d` return what they returned before. -/
theorem terminated_absorbing (s : PID_Tuner) (h : s.finished = true) :
    (∀ now x, run (setInput s x) now = (true, setInput s x)) ∧
    (∀ ts xs k,
      setInput (feed s ts xs k) s.input = s ∧
      feedRet s ts xs k = true ∧
      (feed s ts xs k).output = s.output ∧
      (get_p (feed s ts xs k)).1 = (get_p s).1 ∧
      (get_i (feed s ts xs k)).1 = (get_i s).1 ∧
      (get_d (feed s ts xs k)).1 = (get_d s).1) := by
  refine ⟨fun now x => run_of_finished _ _ h, fun ts xs k => ?_⟩
  obtain ⟨h1, h2⟩ := feed_of_finished s ts xs h k
  have hK : (setInput (feed s ts xs k) s.input).Ku = s.Ku := congrArg PID_Tuner.Ku h1
  have hP : (setInput (feed s ts xs k) s.input).Pu = s.Pu := congrArg PID_Tuner.Pu h1
  have hO : (setInput (feed s ts xs k) s.input).output = s.output :=
    congrArg PID_Tuner.output h1
  simp only [setInput] at hK hP hO
  refine ⟨h1, ?_, hO, ?_, ?_, ?_⟩
  · have h3 : (setInput (feed s ts xs k) (xs k)).finished = true := h2
    rw [feedRet, run_of_finished _ _ h3]
  · simp [get_p, hK]
  · simp [get_i, hK, hP]
  · simp [get_d, hK, hP]

theorem terminated_absorbing_witness :
    ({ blank 0 with finished := true } : PID_Tuner).finished = true ∧
    run (setInput { blank 0 with finished := true } 216) 5000 =
      (true, setInput { blank 0 with finished := true } 216) :=
  ⟨rfl, (terminated_absorbing { blank 0 with finished := true } rfl).1 5000 216⟩

theorem toU32_of_nonneg (i : ℤ) (h0 : 0 ≤ i) (h1 : i < 4294967296) : (toU32 i : ℤ) = i := by
  unfold toU32
  rw [Int.emod_eq_of_lt h0 h1]
  exact Int.toNat_of_nonneg h0

/-- C2. Rate gate: in a non-terminated state, when the time elapsed since
`ts_last` (the 32-bit difference of the clock readings) is less than the
sample period, `run` returns `false` and leaves every field of the object and
the actuation slot as they were, whatever the process value. -/
theorem rate_gate_noop (s : PID_Tuner) (now : ℕ) (hfin : s.finished = false)
    (hst : IntRange s.sample_time) (hgate : (u32sub now s.ts_last : ℤ) < s.sample_time) :
    run s now = (false, s) := by
  have h0 : 0 ≤ s.sample_time := le_trans (Int.natCast_nonneg _) (le_of_lt hgate)
  have h1 : s.sample_time < 4294967296 := lt_trans hst.2 (by norm_num)
  have h2 : u32sub now s.ts_last < toU32 s.sample_time := by
    have := toU32_of_nonneg s.sample_time h0 h1
    omega
  simp [run, hfin, h2]

theorem rate_gate_noop_witness :
    run { blank 0 with sample_time := 1000, ts_last := 4000, input := 216 } 4999 =
      (false, { blank 0 with sample_time := 1000, ts_last := 4000, input := 216 }) :=
  rate_gate_noop { blank 0 with sample_time := 1000, ts_last := 4000, input := 216 } 4999 rfl
    (by constructor <;> decide) (by decide)

/-! ## The return value of a processed step -/

theorem absF_eq_abs (x : ℚ) : absF x = |x| := by
  unfold absF
  split_ifs with h
  · exact (abs_of_pos h).symm
  · exact (abs_of_nonpos (not_lt.mp h)).symm

theorem sample_eq (s : PID_Tuner) (now : ℕ) :
    sample s now =
      if (pushed s now).input_valid = true then
        ((failsafe (recompute (transitioned s now) (isMax s) (isMin s))).finished,
          failsafe (recompute (transitioned s now) (isMax s) (isMin s)))
      else (false, pushed s now) := by
  have hr : (relay (updateExtrema s now s.input) s.input).input_ring = s.input_ring := by
    rw [(relay_frame _ _).2.1, (updateExtrema_frame _ _ _).2.2.1]
  unfold sample transitioned pushed isMax isMin
  dsimp only
  rw [hr]
  split_ifs with h1 h2 h2
  · simp [h2] at h1
  · rfl
  · rfl
  · simp [h2] at h1

theorem pushed_frame (s : PID_Tuner) (now : ℕ) :
    (pushed s now).finished = s.finished ∧
    (pushed s now).peak_count = s.peak_count ∧
    (pushed s now).peak_type = s.peak_type := by
  unfold pushed
  refine ⟨?_, ?_, ?_⟩
  · rw [(pushSample_frame _ _).2.2.1, (relay_frame _ _).2.2.2.2.1,
      (updateExtrema_frame _ _ _).2.2.2.2.2.1]
  · rw [(pushSample_frame _ _).2.2.2.1, (relay_frame _ _).2.2.2.2.2.1,
      (updateExtrema_frame _ _ _).2.2.2.2.2.2.1]
  · rw [(pushSample_frame _ _).2.2.2.2.1, (relay_frame _ _).2.2.2.2.2.2.1,
      (updateExtrema_frame _ _ _).2.2.2.2.2.2.2]

theorem recompute_finished_iff (s : PID_Tuner) (a b : Bool) :
    (recompute s a b).finished = true ↔
      s.finished = true ∨
      ((a || b) = true ∧ 2 < s.peak_count ∧ separation s < threshold s) := by
  unfold recompute
  dsimp only
  split_ifs with h1 h2 h3
  · simp only [true_iff]
    exact Or.inr ⟨h1, h2, h3⟩
  · constructor
    · intro h; exact Or.inl h
    · rintro (h | ⟨-, -, h⟩)
      · exact h
      · exact absurd h h3
  · constructor
    · intro h; exact Or.inl h
    · rintro (h | ⟨-, h, -⟩)
      · exact h
      · exact absurd h h2
  · constructor
    · intro h; exact Or.inl h
    · rintro (h | ⟨h, -, -⟩)
      · exact h
      · exact absurd h h1

theorem failsafe_finished_iff (s : PID_Tuner) :
    (failsafe s).finished = true ↔ s.finished = true ∨ 10 ≤ s.peak_count := by
  unfold failsafe
  split_ifs with h
  · simp only [true_iff]
    exact Or.inr h
  · constructor
    · intro h'; exact Or.inl h'
    · rintro (h' | h')
      · exact h'
      · exact absurd h' h

/-- When a processed step returns `true`: the window is valid after the sample
is stored, and either the count after the peak bookkeeping is 10 or more, or
there is an extremum event, the count exceeds 2 and the separation is below
the threshold of line 113. -/
theorem sample_ret_iff (s : PID_Tuner) (now : ℕ) (hfin : s.finished = false) :
    (sample s now).1 = true ↔
      (pushed s now).input_valid = true ∧
      (10 ≤ (transitioned s now).peak_count ∨
        ((isMax s || isMin s) = true ∧ 2 < (transitioned s now).peak_count ∧
          separation (transitioned s now) < threshold (transitioned s now))) := by
  have ht : (transitioned s now).finished = false := by
    unfold transitioned
    rw [(peakTransition_frame _ _ _ _ _).2.2.1, (pushed_frame s now).1, hfin]
  rw [sample_eq]
  split_ifs with hv
  · simp only [hv, true_and]
    rw [failsafe_finished_iff, recompute_finished_iff, (recompute_frame _ _ _).2.2.2.2.2.1, ht]
    constructor
    · rintro ((h | h) | h)
      · exact absurd h (by simp)
      · exact Or.inr h
      · exact Or.inl h
    · rintro (h | h)
      · exact Or.inr h
      · exact Or.inl (Or.inr h)
  · simp [hv]

/-- The object after a processed step with a valid window, field by field. -/
theorem sample_valid_fields (s : PID_Tuner) (now : ℕ)
    (hv : (pushed s now).input_valid = true) :
    (sample s now).2.peak_count = (transitioned s now).peak_count ∧
    (sample s now).2.peaks = (transitioned s now).peaks ∧
    (sample s now).2.input_max = (transitioned s now).input_max ∧
    (sample s now).2.input_min = (transitioned s now).input_min ∧
    (sample s now).2.peak_type = (transitioned s now).peak_type ∧
    (sample s now).2.finished = (sample s now).1 := by
  rw [sample_eq, if_pos hv]
  dsimp only
  refine ⟨?_, ?_, ?_, ?_, ?_, rfl⟩
  · rw [(failsafe_frame _).2.2.2.2.2.1, (recompute_frame _ _ _).2.2.2.2.2.1]
  · rw [(failsafe_frame _).2.2.2.2.2.2.2.1, (recompute_frame _ _ _).2.2.2.2.2.2.2.1]
  · rw [(failsafe_frame _).2.2.2.2.2.2.2.2.1, (recompute_frame _ _ _).2.2.2.2.2.2.2.2.1]
  · rw [(failsafe_frame _).2.2.2.2.2.2.2.2.2.1, (recompute_frame _ _ _).2.2.2.2.2.2.2.2.2]
  · rw [(failsafe_frame _).2.2.2.2.2.2.1, (recompute_frame _ _ _).2.2.2.2.2.2.1]

/-- The object after a processed step whose window is not yet valid. -/
theorem sample_invalid (s : PID_Tuner) (now : ℕ)
    (hv : (pushed s now).input_valid = false) :
    sample s now = (false, pushed s now) := by
  rw [sample_eq, if_neg (by simp [hv])]

theorem pushed_eq (s : PID_Tuner) (now : ℕ) :
    pushed s now =
      { s with
        ts_last := now
        input_max := if s.input > s.input_max then s.input else s.input_max
        input_min := if s.input < s.input_min then s.input else s.input_min
        output := if s.input > s.setpoint + s.noise_band then s.output_low
                  else if s.input < s.setpoint - s.noise_band then s.output_high
                  else s.output
        input_ring := store s.input_ring s.input_idx s.input
        input_idx := if s.input_idx + 1 ≥ 100 then 0 else s.input_idx + 1
        input_valid := if s.input_idx + 1 ≥ 100 then true else s.input_valid } := by
  unfold pushed pushSample relay updateExtrema
  dsimp only
  split_ifs <;> rfl

theorem transitioned_of_max (s : PID_Tuner) (now : ℕ) (h : isMax s = true) :
    transitioned s now =
      { pushed s now with
        ts_penultimate := if s.peak_type = -1 then s.ts_ultimate else s.ts_penultimate
        peak_type := 1
        ts_ultimate := now
        peaks := store s.peaks s.peak_count s.input } := by
  unfold transitioned peakTransition
  rw [pushed_eq, if_pos h]
  dsimp only
  split_ifs <;> rfl

theorem transitioned_of_min (s : PID_Tuner) (now : ℕ) (h1 : isMax s = false)
    (h2 : isMin s = true) :
    transitioned s now =
      { pushed s now with
        peak_count := if s.peak_type = 1 then s.peak_count + 1 else s.peak_count
        peak_type := -1
        peaks := if (if s.peak_type = 1 then s.peak_count + 1 else s.peak_count) < 10 then
                   store s.peaks (if s.peak_type = 1 then s.peak_count + 1 else s.peak_count)
                     s.input
                 else s.peaks } := by
  unfold transitioned peakTransition
  rw [pushed_eq, if_neg (by simp [h1]), if_pos h2]
  dsimp only
  split_ifs <;> rfl

theorem transitioned_of_none (s : PID_Tuner) (now : ℕ) (h1 : isMax s = false)
    (h2 : isMin s = false) : transitioned s now = pushed s now := by
  unfold transitioned peakTransition
  rw [if_neg (by simp [h1]), if_neg (by simp [h2])]

/-! ## The window scan -/

theorem scanStep_iff (ring : ℤ → ℚ) (cur : ℚ) (acc : Bool × Bool) (i : ℕ) :
    ((scanStep ring cur acc i).1 = true ↔ acc.1 = true ∧ ring (i : ℤ) < cur) ∧
    ((scanStep ring cur acc i).2 = true ↔ acc.2 = true ∧ cur < ring (i : ℤ)) := by
  unfold scanStep
  dsimp only
  constructor
  · split_ifs with h
    · simp [h]
    · simp [h]
  · split_ifs with h
    · simp [h]
    · simp [h]

theorem scan_fold_iff (ring : ℤ → ℚ) (cur : ℚ) (n : ℕ) :
    (((List.range n).foldl (scanStep ring cur) (true, true)).1 = true ↔
        ∀ i : ℕ, i < n → ring (i : ℤ) < cur) ∧
    (((List.range n).foldl (scanStep ring cur) (true, true)).2 = true ↔
        ∀ i : ℕ, i < n → cur < ring (i : ℤ)) := by
  induction n with
  | zero => simp
  | succ n ih =>
    rw [List.range_succ, List.foldl_append]
    simp only [List.foldl_cons, List.foldl_nil]
    obtain ⟨ih1, ih2⟩ := ih
    rw [(scanStep_iff _ _ _ _).1, (scanStep_iff _ _ _ _).2, ih1, ih2]
    constructor
    · constructor
      · rintro ⟨h1, h2⟩ i hi
        rcases Nat.lt_succ_iff_lt_or_eq.mp hi with h' | h'
        · exact h1 i h'
        · subst h'; exact h2
      · intro h
        exact ⟨fun i hi => h i (Nat.lt_succ_of_lt hi), h n (Nat.lt_succ_self n)⟩
    · constructor
      · rintro ⟨h1, h2⟩ i hi
        rcases Nat.lt_succ_iff_lt_or_eq.mp hi with h' | h'
        · exact h1 i h'
        · subst h'; exact h2
      · intro h
        exact ⟨fun i hi => h i (Nat.lt_succ_of_lt hi), h n (Nat.lt_succ_self n)⟩

/-- After the loop, `is_max` holds exactly when the sample is strictly greater
than each of the 100 cells of the ring. -/
theorem isMax_iff (s : PID_Tuner) :
    isMax s = true ↔ ∀ i : ℕ, i < 100 → s.input_ring (i : ℤ) < s.input :=
  (scan_fold_iff s.input_ring s.input 100).1

/-- After the loop, `is_min` holds exactly when the sample is strictly less
than each of the 100 cells of the ring. -/
theorem isMin_iff (s : PID_Tuner) :
    isMin s = true ↔ ∀ i : ℕ, i < 100 → s.input < s.input_ring (i : ℤ) :=
  (scan_fold_iff s.input_ring s.input 100).2

theorem sample_window_fields (s : PID_Tuner) (now : ℕ) :
    (sample s now).2.input_valid = (pushed s now).input_valid ∧
    (sample s now).2.input_idx = (pushed s now).input_idx ∧
    (sample s now).2.input_ring = (pushed s now).input_ring := by
  rw [sample_eq]
  split_ifs with hv
  · dsimp only
    unfold transitioned
    refine ⟨?_, ?_, ?_⟩
    · rw [(failsafe_frame _).2.2.1, (recompute_frame _ _ _).2.2.1,
        (peakTransition_frame _ _ _ _ _).2.2.2.1]
    · rw [(failsafe_frame _).2.2.2.1, (recompute_frame _ _ _).2.2.2.1,
        (peakTransition_frame _ _ _ _ _).2.2.2.2.1]
    · rw [(failsafe_frame _).2.2.2.2.1, (recompute_frame _ _ _).2.2.2.2.1,
        (peakTransition_frame _ _ _ _ _).2.2.2.2.2.1]
  · exact ⟨rfl, rfl, rfl⟩

/-! ## A concrete step -/

theorem midRun_processed (n : ℤ) : Processed (midRun n) 1000 := by
  constructor
  · rfl
  · show toU32 1000 ≤ u32sub 1000 0
    decide

theorem midRun_isMin (n : ℤ) : isMin (midRun n) = true :=
  (isMin_iff (midRun n)).mpr (fun i _ => by simp only [midRun, blank]; norm_num)

theorem midRun_isMax (n : ℤ) : isMax (midRun n) = false := by
  rw [Bool.eq_false_iff, Ne, isMax_iff]
  intro h
  have h0 := h 0 (by norm_num)
  simp only [midRun, blank] at h0
  norm_num at h0

theorem midRun_pushed_valid (n : ℤ) : (pushed (midRun n) 1000).input_valid = true := by
  rw [pushed_eq]
  rfl

theorem midRun_run_valid (n : ℤ) : (run (midRun n) 1000).2.input_valid = true := by
  rw [run_of_processed _ _ (midRun_processed n), (sample_window_fields _ _).1]
  exact midRun_pushed_valid n

theorem midRun_run_count (n : ℤ) : (run (midRun n) 1000).2.peak_count = n + 1 := by
  rw [run_of_processed _ _ (midRun_processed n),
    (sample_valid_fields _ _ (midRun_pushed_valid n)).1,
    transitioned_of_min _ _ (midRun_isMax n) (midRun_isMin n)]
  rfl

theorem midRun_run_separation :
    separation (run (midRun 2) 1000).2 < threshold (run (midRun 2) 1000).2 := by
  decide!

/-! ## The relay -/

/-- C3. Relay law with hysteresis: on every processed step, for every previous
actuation value `v` and process value `x`, the actuation slot becomes
`output_low` if `x > setpoint + noise_band`, becomes `output_high` if
`x < setpoint - noise_band`, and keeps `v` if `x` lies in the closed band; with
setpoint 214.5 and noise band 1.0 the values 216.0, 213.0 and 214.5 give
`output_low`, `output_high` and `v`.  The noise band is a half-width: it is not
negative (it is 1.0 in every reachable state). -/
theorem relay_law (s : PID_Tuner) (now : ℕ) (x v : ℚ)
    (hproc : Processed (setInput (setOutput s v) x) now) (hnb : 0 ≤ s.noise_band) :
    (x > s.setpoint + s.noise_band →
      (run (setInput (setOutput s v) x) now).2.output = s.output_low) ∧
    (x < s.setpoint - s.noise_band →
      (run (setInput (setOutput s v) x) now).2.output = s.output_high) ∧
    (s.setpoint - s.noise_band ≤ x → x ≤ s.setpoint + s.noise_band →
      (run (setInput (setOutput s v) x) now).2.output = v) ∧
    (s.setpoint = 214.5 → s.noise_band = 1.0 →
      (x = 216.0 → (run (setInput (setOutput s v) x) now).2.output = s.output_low) ∧
      (x = 213.0 → (run (setInput (setOutput s v) x) now).2.output = s.output_high) ∧
      (x = 214.5 → (run (setInput (setOutput s v) x) now).2.output = v)) := by
  have key : (run (setInput (setOutput s v) x) now).2.output =
      if x > s.setpoint + s.noise_band then s.output_low
      else if x < s.setpoint - s.noise_band then s.output_high else v := by
    rw [run_of_processed _ _ hproc, sample_output]
    have hc := (updateExtrema_frame (setInput (setOutput s v) x) now x).1
    have ho := (updateExtrema_frame (setInput (setOutput s v) x) now x).2.1
    simp only [config, setInput, setOutput, Prod.mk.injEq] at hc ho
    obtain ⟨h1, h2, -, h4, h5⟩ := hc
    simp only [setInput, setOutput]
    unfold relay
    rw [h1, h2, h4, h5]
    split_ifs <;> first | rfl | exact ho
  rw [key]
  refine ⟨fun h => by rw [if_pos h], fun h => ?_, fun h1 h2 => ?_, fun hs hn => ⟨?_, ?_, ?_⟩⟩
  · rw [if_neg (by linarith), if_pos h]
  · rw [if_neg (by linarith), if_neg (by linarith)]
  · intro hx
    rw [if_pos (by rw [hx, hs, hn]; norm_num)]
  · intro hx
    rw [if_neg (by rw [hx, hs, hn]; norm_num), if_pos (by rw [hx, hs, hn]; norm_num)]
  · intro hx
    rw [if_neg (by rw [hx, hs, hn]; norm_num), if_neg (by rw [hx, hs, hn]; norm_num)]

theorem relay_law_witness :
    Processed (setInput (setOutput (construct (blank 0) 0) 37) 216) 1000 ∧
    (run (setInput (setOutput (construct (blank 0) 0) 37) 216) 1000).2.output = 0 :=
  ⟨by constructor <;> decide,
   (relay_law (construct (blank 0) 0) 1000 216 37 (by constructor <;> decide)
      (by simp only [construct, reset]; norm_num)).1
        (by simp only [construct, reset]; norm_num)⟩

/-! ## The gain accessors -/

/-- C4. Gain accessors: `get_p` returns 0.6·Ku, `get_i` returns 1.2·Ku/Pu (the
quotient: multiplied by the non-zero Pu it gives 1.2·Ku) and `get_d` returns
0.075·Ku·Pu, in exact arithmetic, and each of the three leaves the object,
actuation slot included, as it was. -/
theorem gain_accessors (s : PID_Tuner) (hPu : s.Pu ≠ 0) :
    (get_p s).1 = 3 / 5 * s.Ku ∧
    (get_i s).1 = 6 / 5 * s.Ku / s.Pu ∧
    (get_i s).1 * s.Pu = 6 / 5 * s.Ku ∧
    (get_d s).1 = 3 / 40 * s.Ku * s.Pu ∧
    (get_p s).2 = s ∧ (get_i s).2 = s ∧ (get_d s).2 = s := by
  refine ⟨?_, ?_, ?_, ?_, rfl, rfl, rfl⟩
  · simp only [get_p]; norm_num
  · simp only [get_i]; norm_num
  · simp only [get_i]; field_simp; ring
  · simp only [get_d]; norm_num

theorem gain_accessors_witness :
    (get_p { blank 0 with Ku := 3, Pu := 5 }).1 = 3 / 5 * 3 ∧
    (get_i { blank 0 with Ku := 3, Pu := 5 }).1 = 6 / 5 * 3 / 5 ∧
    (get_d { blank 0 with Ku := 3, Pu := 5 }).1 = 3 / 40 * 3 * 5 :=
  have h := gain_accessors { blank 0 with Ku := 3, Pu := 5 } (by simp)
  ⟨h.1, h.2.1, h.2.2.2.1⟩

/-- C5, as stated, fails: with Ku = 2.0 and Pu = 4.0 the three accessors do
not return 1.2, 1.0 and 0.6, because `get_i` returns 1.2·2/4 = 0.6. -/
theorem worked_gains_as_stated_fail :
    ¬ ((get_p { blank 0 with Ku := 2.0, Pu := 4.0 }).1 = 1.2 ∧
       (get_i { blank 0 with Ku := 2.0, Pu := 4.0 }).1 = 1.0 ∧
       (get_d { blank 0 with Ku := 2.0, Pu := 4.0 }).1 = 0.6) := by
  simp only [get_p, get_i, get_d]
  norm_num

/-- C5, amended. Worked gain example: in a state with Ku = 2.0 and Pu = 4.0,
`get_p` returns 1.2, `get_i` returns 0.6 and `get_d` returns 0.6, exactly. -/
theorem gain_example (s : PID_Tuner) (hKu : s.Ku = 2.0) (hPu : s.Pu = 4.0) :
    (get_p s).1 = 1.2 ∧ (get_i s).1 = 0.6 ∧ (get_d s).1 = 0.6 := by
  simp only [get_p, get_i, get_d, hKu, hPu]
  norm_num

theorem gain_example_witness :
    (get_p { blank 0 with Ku := 2.0, Pu := 4.0 }).1 = 1.2 ∧
    (get_i { blank 0 with Ku := 2.0, Pu := 4.0 }).1 = 0.6 ∧
    (get_d { blank 0 with Ku := 2.0, Pu := 4.0 }).1 = 0.6 :=
  gain_example { blank 0 with Ku := 2.0, Pu := 4.0 } rfl rfl

/-! ## Convergence test and failsafe -/

theorem pushed_valid_of_run (s : PID_Tuner) (now : ℕ) (hproc : Processed s now)
    (hv : (run s now).2.input_valid = true) : (pushed s now).input_valid = true := by
  by_contra h
  have h' : (pushed s now).input_valid = false := by simpa using h
  rw [run_of_processed _ _ hproc, sample_invalid _ _ h'] at hv
  exact h (by simpa using hv)

/-- C6, as stated, fails: call number 106 on the binary32 samples of
`tieSamples` is a processed step with a valid window whose sample is a window
minimum and whose count after the step is 3; on it
(|peaks[2] - peaks[1]| + |peaks[1] - peaks[0]|)/2 = 13.25 is below 5% of
running_max - running_min = 265.1f - 0.1f, yet `run` returns `false` and the
termination flag stays clear: the code's subtraction rounds to 265 and its
product to 13.25. -/
theorem convergence_exact_test_fails :
    Processed tieCall 107000 ∧
    (run tieCall 107000).2.input_valid = true ∧
    isMin tieCall = true ∧
    (run tieCall 107000).2.peak_count = 3 ∧
    (|(run tieCall 107000).2.peaks ((run tieCall 107000).2.peak_count - 1) -
        (run tieCall 107000).2.peaks ((run tieCall 107000).2.peak_count - 2)| +
      |(run tieCall 107000).2.peaks ((run tieCall 107000).2.peak_count - 2) -
        (run tieCall 107000).2.peaks ((run tieCall 107000).2.peak_count - 3)|) / 2 <
      0.05 * ((run tieCall 107000).2.input_max - (run tieCall 107000).2.input_min) ∧
    (run tieCall 107000).1 = false ∧ (run tieCall 107000).2.finished = false := by
  decide!

/-- C6, amended. Convergence test: on a processed step with a valid window on
which the sample is a window maximum or minimum and the count `n` after the
step exceeds 2, the termination flag is set and `run` returns `true` whenever
the separation as the code computes it, in binary32 arithmetic from
peaks[n-1], peaks[n-2] and peaks[n-3], is below the threshold as the code
computes it, the binary64 product of the `double` nearest to 0.05 and the
binary32 difference running_max - running_min; and a processed step whose
count after the step is at most 2 returns `false`, whatever the peak values
are. -/
theorem convergence_test (s : PID_Tuner) (now : ℕ) (hproc : Processed s now) :
    ((run s now).2.input_valid = true → (isMax s = true ∨ isMin s = true) →
      2 < (run s now).2.peak_count →
      f32 (f32 (absF (f32 ((run s now).2.peaks ((run s now).2.peak_count - 1) -
              (run s now).2.peaks ((run s now).2.peak_count - 2))) +
          absF (f32 ((run s now).2.peaks ((run s now).2.peak_count - 2) -
              (run s now).2.peaks ((run s now).2.peak_count - 3)))) / 2) <
        f64 (f64 0.05 * f32 ((run s now).2.input_max - (run s now).2.input_min)) →
      (run s now).1 = true ∧ (run s now).2.finished = true) ∧
    ((run s now).2.peak_count ≤ 2 → (run s now).1 = false) := by
  constructor
  · intro hv hev hn hsep
    have hpv := pushed_valid_of_run s now hproc hv
    rw [run_of_processed _ _ hproc] at hn hsep ⊢
    obtain ⟨f1, f2, f3, f4, -, f6⟩ := sample_valid_fields s now hpv
    rw [f1] at hn
    rw [f1, f2, f3, f4] at hsep
    have hret : (sample s now).1 = true := by
      rw [sample_ret_iff s now hproc.1]
      refine ⟨hpv, Or.inr ⟨?_, hn, ?_⟩⟩
      · rcases hev with h | h <;> simp [h]
      · unfold separation threshold
        exact hsep
    exact ⟨hret, by rw [f6, hret]⟩
  · intro hn
    rw [run_of_processed _ _ hproc] at hn ⊢
    by_contra hne
    have hret : (sample s now).1 = true := by simpa using hne
    obtain ⟨hpv, h⟩ := (sample_ret_iff s now hproc.1).mp hret
    rw [(sample_valid_fields s now hpv).1] at hn
    rcases h with h | ⟨-, h, -⟩ <;> omega

theorem convergence_test_witness :
    Processed (midRun 2) 1000 ∧
    (run (midRun 2) 1000).1 = true ∧ (run (midRun 2) 1000).2.finished = true :=
  ⟨midRun_processed 2,
   (convergence_test (midRun 2) 1000 (midRun_processed 2)).1 (midRun_run_valid 2)
     (Or.inr (midRun_isMin 2)) (by rw [midRun_run_count]; decide) midRun_run_separation⟩

theorem transitioned_count (s : PID_Tuner) (now : ℕ) :
    (transitioned s now).peak_count = s.peak_count ∨
    (transitioned s now).peak_count = s.peak_count + 1 := by
  by_cases h1 : isMax s = true
  · rw [transitioned_of_max s now h1, pushed_eq]
    exact Or.inl rfl
  · have h1' : isMax s = false := by simpa using h1
    by_cases h2 : isMin s = true
    · rw [transitioned_of_min s now h1' h2, pushed_eq]
      by_cases h3 : s.peak_type = 1
      · right; show (if s.peak_type = 1 then s.peak_count + 1 else s.peak_count) = _
        rw [if_pos h3]
      · left; show (if s.peak_type = 1 then s.peak_count + 1 else s.peak_count) = _
        rw [if_neg h3]
    · have h2' : isMin s = false := by simpa using h2
      rw [transitioned_of_none s now h1' h2', pushed_eq]
      exact Or.inl rfl

theorem pushed_idx (s : PID_Tuner) (now : ℕ) :
    (pushed s now).input_idx = if s.input_idx + 1 ≥ 100 then 0 else s.input_idx + 1 := by
  rw [pushed_eq]

theorem inv_construct (mem : PID_Tuner) (now : ℕ) : Inv (construct mem now) := by
  refine ⟨rfl, ?_, ?_, ?_, ?_, ?_⟩ <;> simp [construct, reset]

theorem inv_reset (s : PID_Tuner) (now : ℕ) (h : Inv s) : Inv (reset s now) := by
  obtain ⟨hc, -⟩ := h
  simp only [config, Prod.mk.injEq] at hc
  refine ⟨?_, ?_, ?_, ?_, ?_, ?_⟩
  · simp only [config, reset, Prod.mk.injEq, hc.2.1, hc.2.2.1, and_self]
  all_goals simp [reset]

theorem inv_sample (s : PID_Tuner) (now : ℕ) (h : Inv s) (hfin : s.finished = false) :
    Inv (sample s now).2 := by
  obtain ⟨hc, i0, i1, c0, -, c2⟩ := h
  have hlt := c2 hfin
  obtain ⟨-, w2, -⟩ := sample_window_fields s now
  have hidx := pushed_idx s now
  refine ⟨by rw [sample_config, hc], ?_, ?_, ?_⟩
  · rw [w2, hidx]; split_ifs <;> omega
  · rw [w2, hidx]; split_ifs <;> omega
  · by_cases hv : (pushed s now).input_valid = true
    · obtain ⟨f1, -, -, -, -, f6⟩ := sample_valid_fields s now hv
      have hcnt := transitioned_count s now
      rw [f1, f6]
      refine ⟨by omega, by omega, fun hret => ?_⟩
      by_contra hge
      have : (sample s now).1 = true :=
        (sample_ret_iff s now hfin).mpr ⟨hv, Or.inl (by omega)⟩
      rw [hret] at this
      exact Bool.false_ne_true this
    · have hv' : (pushed s now).input_valid = false := by simpa using hv
      rw [sample_invalid s now hv']
      have := (pushed_frame s now).2.1
      dsimp only
      refine ⟨by omega, by omega, fun _ => by omega⟩

theorem inv_run (s : PID_Tuner) (now : ℕ) (h : Inv s) : Inv (run s now).2 := by
  unfold run
  split_ifs with h1 h2
  · exact h
  · exact h
  · exact inv_sample s now h (by simpa using h1)

/-- Every state a tuner object can be in satisfies `Inv`. -/
theorem reachable_inv (s : PID_Tuner) (h : Reachable s) : Inv s := by
  induction h with
  | construct mem now => exact inv_construct mem now
  | reset s now _ ih => exact inv_reset s now ih
  | run s now _ ih => exact inv_run s now ih
  | setInput s x _ ih => exact ih
  | setOutput s v _ ih => exact ih

/-- In a reachable state that has not terminated fewer than 10 cycles are
complete. -/
theorem reachable_count_lt (s : PID_Tuner) (h : Reachable s) (hfin : s.finished = false) :
    s.peak_count < 10 :=
  (reachable_inv s h).2.2.2.2.2 hfin

/-- C9. Postcondition of `reset`: for every prior state of a tuner object,
process value `x` and actuation value `v`, after `reset` the termination flag
is false, peak type, peak count and window fill index are 0, the valid flag is
false, running_max = running_min = x, setpoint = 214.5, output_high = 500,
output_low = 0, noise band = 1.0, sample period = 1000, Ku = 1 and Pu = 1 (so
the accessors return 0.6, 1.2 and 0.075), and the actuation slot still holds
`v`. -/
theorem reset_postcondition (s : PID_Tuner) (hs : Reachable s) (x v : ℚ) (now : ℕ) :
    (reset (setOutput (setInput s x) v) now).finished = false ∧
    (reset (setOutput (setInput s x) v) now).peak_type = 0 ∧
    (reset (setOutput (setInput s x) v) now).peak_count = 0 ∧
    (reset (setOutput (setInput s x) v) now).input_idx = 0 ∧
    (reset (setOutput (setInput s x) v) now).input_valid = false ∧
    (reset (setOutput (setInput s x) v) now).input_max = x ∧
    (reset (setOutput (setInput s x) v) now).input_min = x ∧
    (reset (setOutput (setInput s x) v) now).setpoint = 214.5 ∧
    (reset (setOutput (setInput s x) v) now).output_high = 500 ∧
    (reset (setOutput (setInput s x) v) now).output_low = 0 ∧
    (reset (setOutput (setInput s x) v) now).noise_band = 1.0 ∧
    (reset (setOutput (setInput s x) v) now).sample_time = 1000 ∧
    (reset (setOutput (setInput s x) v) now).Ku = 1 ∧
    (reset (setOutput (setInput s x) v) now).Pu = 1 ∧
    (get_p (reset (setOutput (setInput s x) v) now)).1 = 0.6 ∧
    (get_i (reset (setOutput (setInput s x) v) now)).1 = 1.2 ∧
    (get_d (reset (setOutput (setInput s x) v) now)).1 = 0.075 ∧
    (reset (setOutput (setInput s x) v) now).output = v := by
  have hc := (reachable_inv s hs).1
  simp only [config, Prod.mk.injEq] at hc
  obtain ⟨-, hnb, hst, -, -⟩ := hc
  refine ⟨rfl, rfl, rfl, rfl, rfl, rfl, rfl, rfl, rfl, rfl, hnb, hst, ?_, ?_, ?_, ?_, ?_, rfl⟩
  all_goals simp only [reset, get_p, get_i, get_d]
  all_goals norm_num

theorem reset_postcondition_witness :
    Reachable (construct (blank 7) 0) ∧
    (reset (setOutput (setInput (construct (blank 7) 0) 180) 500) 60000).noise_band = 1.0 ∧
    (reset (setOutput (setInput (construct (blank 7) 0) 180) 500) 60000).sample_time = 1000 ∧
    (reset (setOutput (setInput (construct (blank 7) 0) 180) 500) 60000).input_max = 180 ∧
    (reset (setOutput (setInput (construct (blank 7) 0) 180) 500) 60000).output = 500 :=
  have h := reset_postcondition (construct (blank 7) 0) (Reachable.construct (blank 7) 0)
    180 500 60000
  ⟨Reachable.construct (blank 7) 0, h.2.2.2.2.2.2.2.2.2.2.1, h.2.2.2.2.2.2.2.2.2.2.2.1,
    h.2.2.2.2.2.1, h.2.2.2.2.2.2.2.2.2.2.2.2.2.2.2.2.2⟩

/-! ## The window while samples are fed after `reset` -/

theorem peakTransition_ts_last (s : PID_Tuner) (now : ℕ) (cur : ℚ) (a b : Bool) :
    (peakTransition s now cur a b).ts_last = s.ts_last := by
  unfold peakTransition
  dsimp only
  split_ifs <;> rfl

theorem recompute_times (s : PID_Tuner) (a b : Bool) :
    (recompute s a b).ts_last = s.ts_last ∧
    (recompute s a b).ts_ultimate = s.ts_ultimate ∧
    (recompute s a b).ts_penultimate = s.ts_penultimate := by
  unfold recompute
  dsimp only
  split_ifs <;> exact ⟨rfl, rfl, rfl⟩

theorem failsafe_times (s : PID_Tuner) :
    (failsafe s).ts_last = s.ts_last ∧
    (failsafe s).ts_ultimate = s.ts_ultimate ∧
    (failsafe s).ts_penultimate = s.ts_penultimate := by
  unfold failsafe
  split_ifs <;> exact ⟨rfl, rfl, rfl⟩

theorem later_stages_frame (s : PID_Tuner) (now : ℕ) (cur : ℚ) (a b : Bool) :
    (failsafe (recompute (peakTransition s now cur a b) a b)).ts_last = s.ts_last ∧
    (failsafe (recompute (peakTransition s now cur a b) a b)).input_max = s.input_max ∧
    (failsafe (recompute (peakTransition s now cur a b) a b)).input_min = s.input_min ∧
    (failsafe (recompute (peakTransition s now cur a b) a b)).ts_ultimate =
      (peakTransition s now cur a b).ts_ultimate := by
  refine ⟨?_, ?_, ?_, ?_⟩
  · rw [(failsafe_times _).1, (recompute_times _ _ _).1, peakTransition_ts_last]
  · rw [(failsafe_frame _).2.2.2.2.2.2.2.2.1, (recompute_frame _ _ _).2.2.2.2.2.2.2.2.1,
      (peakTransition_frame _ _ _ _ _).2.2.2.2.2.2.1]
  · rw [(failsafe_frame _).2.2.2.2.2.2.2.2.2.1, (recompute_frame _ _ _).2.2.2.2.2.2.2.2.2,
      (peakTransition_frame _ _ _ _ _).2.2.2.2.2.2.2]
  · rw [(failsafe_times _).2.1, (recompute_times _ _ _).2.1]

theorem sample_extrema_fields (s : PID_Tuner) (now : ℕ) :
    (sample s now).2.ts_last = (pushed s now).ts_last ∧
    (sample s now).2.input_max = (pushed s now).input_max ∧
    (sample s now).2.input_min = (pushed s now).input_min := by
  by_cases hv : (pushed s now).input_valid = true
  · rw [sample_eq, if_pos hv]
    have h := later_stages_frame (pushed s now) now s.input (isMax s) (isMin s)
    exact ⟨h.1, h.2.1, h.2.2.1⟩
  · rw [sample_eq, if_neg hv]
    exact ⟨rfl, rfl, rfl⟩

theorem sample_pushed_fields (s : PID_Tuner) (now : ℕ) :
    (sample s now).2.ts_last = now ∧
    (sample s now).2.input_max = (if s.input > s.input_max then s.input else s.input_max) ∧
    (sample s now).2.input_min = (if s.input < s.input_min then s.input else s.input_min) ∧
    (sample s now).2.input_ring = store s.input_ring s.input_idx s.input ∧
    (sample s now).2.input_idx = (if s.input_idx + 1 ≥ 100 then 0 else s.input_idx + 1) ∧
    (sample s now).2.input_valid = (if s.input_idx + 1 ≥ 100 then true else s.input_valid) := by
  obtain ⟨w1, w2, w3⟩ := sample_window_fields s now
  obtain ⟨e1, e2, e3⟩ := sample_extrema_fields s now
  rw [w1, w2, w3, e1, e2, e3, pushed_eq]
  exact ⟨rfl, rfl, rfl, rfl, rfl, rfl⟩

theorem feed_succ (s : PID_Tuner) (ts : ℕ → ℕ) (xs : ℕ → ℚ) (k : ℕ) :
    feed s ts xs (k + 1) = (run (before s ts xs k) (ts k)).2 := rfl

/-- The window after `k` samples have been fed from `reset`, as long as no
call found the tuner terminated: the index, the valid flag, the cells that
hold the last samples, the cells not yet written, and the running extrema. -/
theorem feed_window (s : PID_Tuner) (t0 : ℕ) (ts : ℕ → ℕ) (xs : ℕ → ℚ) :
    ∀ k : ℕ, Paced s.sample_time t0 ts k →
      (∀ j, j < k → (feed (reset s t0) ts xs j).finished = false) →
      config (feed (reset s t0) ts xs k) = config (reset s t0) ∧
      (feed (reset s t0) ts xs k).ts_last = prevTime t0 ts k ∧
      (feed (reset s t0) ts xs k).input_idx = ((k % 100 : ℕ) : ℤ) ∧
      (feed (reset s t0) ts xs k).input_valid = decide (100 ≤ k) ∧
      (∀ j, j < k → k ≤ j + 100 →
        (feed (reset s t0) ts xs k).input_ring ((j % 100 : ℕ) : ℤ) = xs j) ∧
      (k ≤ 100 → ∀ i : ℤ, (k : ℤ) ≤ i →
        (feed (reset s t0) ts xs k).input_ring i = s.input_ring i) ∧
      (feed (reset s t0) ts xs k).input_max = runMax s.input xs k ∧
      (feed (reset s t0) ts xs k).input_min = runMin s.input xs k := by
  intro k
  induction k with
  | zero =>
    intro _ _
    refine ⟨rfl, rfl, rfl, rfl, fun j hj => absurd hj (Nat.not_lt_zero j), fun _ i _ => rfl,
      rfl, rfl⟩
  | succ k ih =>
    intro hp hf
    obtain ⟨ic, it, ii, iv, ir, is, iM, im⟩ :=
      ih (fun j hj => hp j (Nat.lt_succ_of_lt hj)) (fun j hj => hf j (Nat.lt_succ_of_lt hj))
    have hst : (feed (reset s t0) ts xs k).sample_time = s.sample_time := by
      have := congrArg (fun c => c.2.2.1) ic
      simpa [config, reset] using this
    have hproc : Processed (before (reset s t0) ts xs k) (ts k) := by
      refine ⟨hf k (Nat.lt_succ_self k), ?_⟩
      show toU32 (feed (reset s t0) ts xs k).sample_time ≤
        u32sub (ts k) (feed (reset s t0) ts xs k).ts_last
      rw [hst, it]
      exact hp k (Nat.lt_succ_self k)
    rw [feed_succ, run_of_processed _ _ hproc]
    obtain ⟨p1, p2, p3, p4, p5, p6⟩ := sample_pushed_fields (before (reset s t0) ts xs k) (ts k)
    refine ⟨?_, ?_, ?_, ?_, ?_, ?_, ?_, ?_⟩
    · rw [sample_config]; exact ic
    · rw [p1]; simp [prevTime]
    · rw [p5]
      show (if (feed (reset s t0) ts xs k).input_idx + 1 ≥ 100 then 0
        else (feed (reset s t0) ts xs k).input_idx + 1) = _
      rw [ii]
      split_ifs <;> omega
    · rw [p6]
      show (if (feed (reset s t0) ts xs k).input_idx + 1 ≥ 100 then true
        else (feed (reset s t0) ts xs k).input_valid) = _
      rw [ii, iv]
      split_ifs with h
      · simp only [true_eq_decide_iff]; omega
      · by_cases h100 : 100 ≤ k
        · simp only [h100, decide_True, true_eq_decide_iff]; omega
        · simp only [h100, decide_False, false_eq_decide_iff]; omega
    · intro j hj hk
      rw [p4]
      show store (feed (reset s t0) ts xs k).input_ring (feed (reset s t0) ts xs k).input_idx
        (xs k) _ = _
      rw [ii]
      unfold store
      by_cases hjk : j = k
      · subst hjk; rw [if_pos rfl]
      · rw [if_neg (by omega)]
        exact ir j (by omega) (by omega)
    · intro hk i hi
      rw [p4]
      show store (feed (reset s t0) ts xs k).input_ring (feed (reset s t0) ts xs k).input_idx
        (xs k) _ = _
      rw [ii]
      unfold store
      rw [if_neg (by omega)]
      exact is (by omega) i (by omega)
    · rw [p2]
      show (if xs k > (feed (reset s t0) ts xs k).input_max then xs k
        else (feed (reset s t0) ts xs k).input_max) = _
      rw [iM]; rfl
    · rw [p3]
      show (if xs k < (feed (reset s t0) ts xs k).input_min then xs k
        else (feed (reset s t0) ts xs k).input_min) = _
      rw [im]; rfl

theorem sample_count_type (s : PID_Tuner) (now : ℕ) :
    ((pushed s now).input_valid = false ∨ (isMax s = false ∧ isMin s = false) →
      (sample s now).2.peak_count = s.peak_count ∧
      (sample s now).2.peak_type = s.peak_type) ∧
    ((pushed s now).input_valid = true → isMax s = true →
      (sample s now).2.peak_count = s.peak_count ∧ (sample s now).2.peak_type = 1) ∧
    ((pushed s now).input_valid = true → isMax s = false → isMin s = true →
      (sample s now).2.peak_count = (if s.peak_type = 1 then s.peak_count + 1 else s.peak_count) ∧
      (sample s now).2.peak_type = -1) := by
  have hpf := pushed_frame s now
  refine ⟨fun h => ?_, fun hv hmax => ?_, fun hv hmax hmin => ?_⟩
  · by_cases hv : (pushed s now).input_valid = true
    · rcases h with h | ⟨h1, h2⟩
      · rw [h] at hv; exact absurd hv (by simp)
      · obtain ⟨f1, -, -, -, f5, -⟩ := sample_valid_fields s now hv
        rw [f1, f5, transitioned_of_none s now h1 h2]
        exact ⟨hpf.2.1, hpf.2.2⟩
    · have hv' : (pushed s now).input_valid = false := by simpa using hv
      rw [sample_invalid s now hv']
      exact ⟨hpf.2.1, hpf.2.2⟩
  · obtain ⟨f1, -, -, -, f5, -⟩ := sample_valid_fields s now hv
    rw [f1, f5, transitioned_of_max s now hmax]
    exact ⟨hpf.2.1, rfl⟩
  · obtain ⟨f1, -, -, -, f5, -⟩ := sample_valid_fields s now hv
    rw [f1, f5, transitioned_of_min s now hmax hmin]
    exact ⟨rfl, rfl⟩

theorem sample_small_count (s : PID_Tuner) (now : ℕ) (hfin : s.finished = false)
    (h : (sample s now).2.peak_count ≤ 2) : (sample s now).2.finished = false := by
  by_cases hv : (pushed s now).input_valid = true
  · obtain ⟨f1, -, -, -, -, f6⟩ := sample_valid_fields s now hv
    rw [f6]
    by_contra hne
    have hret : (sample s now).1 = true := by simpa using hne
    obtain ⟨-, h'⟩ := (sample_ret_iff s now hfin).mp hret
    rw [f1] at h
    rcases h' with h' | ⟨-, h', -⟩ <;> omega
  · have hv' : (pushed s now).input_valid = false := by simpa using hv
    rw [sample_invalid s now hv']
    exact (pushed_frame s now).1.trans hfin

/-- A call of `feed` is processed when the clock is paced and the tuner has
not terminated before it. -/
theorem feed_processed (s : PID_Tuner) (t0 : ℕ) (ts : ℕ → ℕ) (xs : ℕ → ℚ) (k : ℕ)
    (hp : Paced s.sample_time t0 ts (k + 1))
    (hf : ∀ j, j ≤ k → (feed (reset s t0) ts xs j).finished = false) :
    Processed (before (reset s t0) ts xs k) (ts k) := by
  obtain ⟨ic, it, -⟩ := feed_window s t0 ts xs k
    (fun j hj => hp j (Nat.lt_succ_of_lt hj)) (fun j hj => hf j (Nat.le_of_lt hj))
  have hst : (feed (reset s t0) ts xs k).sample_time = s.sample_time := by
    have := congrArg (fun c => c.2.2.1) ic
    simpa [config, reset] using this
  refine ⟨hf k (Nat.le_refl k), ?_⟩
  show toU32 (feed (reset s t0) ts xs k).sample_time ≤
    u32sub (ts k) (feed (reset s t0) ts xs k).ts_last
  rw [hst, it]
  exact hp k (Nat.lt_succ_self k)

/-- The cell of the ring that holds the previous sample. -/
theorem feed_prev_cell (s : PID_Tuner) (t0 : ℕ) (ts : ℕ → ℕ) (xs : ℕ → ℚ) (k : ℕ)
    (hp : Paced s.sample_time t0 ts (k + 1))
    (hf : ∀ j, j ≤ k + 1 → (feed (reset s t0) ts xs j).finished = false) :
    (before (reset s t0) ts xs (k + 1)).input_ring ((k % 100 : ℕ) : ℤ) = xs k := by
  obtain ⟨-, -, -, -, ir, -⟩ := feed_window s t0 ts xs (k + 1) hp
    (fun j hj => hf j (Nat.le_of_lt hj))
  exact ir k (Nat.lt_succ_self k) (by omega)

/-- On a rising and falling sequence a sample can be below the whole window
only at the first call or after the peak. -/
theorem updown_isMin (s : PID_Tuner) (t0 : ℕ) (ts : ℕ → ℕ) (xs : ℕ → ℚ) (p n : ℕ)
    (hud : UpDown xs p n) (hp : Paced s.sample_time t0 ts n) (k : ℕ) (hk : k < n)
    (hf : ∀ j, j ≤ k → (feed (reset s t0) ts xs j).finished = false)
    (h : isMin (before (reset s t0) ts xs k) = true) : k = 0 ∨ p < k := by
  by_contra hc
  obtain ⟨k', hk'⟩ : ∃ k', k = k' + 1 := ⟨k - 1, by omega⟩
  subst hk'
  have h1 := (isMin_iff _).mp h (k' % 100) (Nat.mod_lt _ (by norm_num))
  rw [feed_prev_cell s t0 ts xs k' (fun j hj => hp j (by omega)) hf] at h1
  have h2 := hud.2.1 k' (k' + 1) (by omega) (by omega)
  exact absurd h1 (not_lt.mpr (le_of_lt h2))

/-- On a rising and falling sequence a sample can be above the whole window
only up to the peak. -/
theorem updown_isMax (s : PID_Tuner) (t0 : ℕ) (ts : ℕ → ℕ) (xs : ℕ → ℚ) (p n : ℕ)
    (hud : UpDown xs p n) (hp : Paced s.sample_time t0 ts n) (k : ℕ) (hk : k < n)
    (hf : ∀ j, j ≤ k → (feed (reset s t0) ts xs j).finished = false)
    (h : isMax (before (reset s t0) ts xs k) = true) : k ≤ p := by
  by_contra hc
  obtain ⟨k', hk'⟩ : ∃ k', k = k' + 1 := ⟨k - 1, by omega⟩
  subst hk'
  have h1 := (isMax_iff _).mp h (k' % 100) (Nat.mod_lt _ (by norm_num))
  rw [feed_prev_cell s t0 ts xs k' (fun j hj => hp j (by omega)) hf] at h1
  have h2 := hud.2.2 k' (k' + 1) (by omega) (by omega) hk
  exact absurd h1 (not_lt.mpr (le_of_lt h2))

/-- On a sequence that rises to index `p` and falls after it, fed from
`reset`, the tuner does not terminate, and the count stays 0 until a minimum
after the peak makes it 1. -/
theorem updown_feed (s : PID_Tuner) (t0 : ℕ) (ts : ℕ → ℕ) (xs : ℕ → ℚ) (p n : ℕ)
    (hud : UpDown xs p n) (hp : Paced s.sample_time t0 ts n) :
    ∀ k, k ≤ n →
      (∀ j, j ≤ k → (feed (reset s t0) ts xs j).finished = false) ∧
      ((feed (reset s t0) ts xs k).peak_count = 0 ∨
        ((feed (reset s t0) ts xs k).peak_count = 1 ∧
          (feed (reset s t0) ts xs k).peak_type = -1 ∧ p < k)) := by
  intro k
  induction k with
  | zero =>
    intro _
    refine ⟨fun j hj => ?_, Or.inl rfl⟩
    have : j = 0 := by omega
    subst this
    rfl
  | succ k ih =>
    intro hk
    obtain ⟨hf, hG⟩ := ih (by omega)
    have hpk : Paced s.sample_time t0 ts (k + 1) := fun j hj => hp j (by omega)
    have hproc := feed_processed s t0 ts xs k hpk hf
    obtain ⟨-, -, ii, iv, -⟩ := feed_window s t0 ts xs k
      (fun j hj => hp j (by omega)) (fun j hj => hf j (Nat.le_of_lt hj))
    have hmin := updown_isMin s t0 ts xs p n hud hp k (by omega) hf
    have hmax := updown_isMax s t0 ts xs p n hud hp k (by omega) hf
    have hv0 : k = 0 → (pushed (before (reset s t0) ts xs k) (ts k)).input_valid = false := by
      intro h0
      subst h0
      rw [pushed_eq]
      rfl
    obtain ⟨c1, c2, c3⟩ := sample_count_type (before (reset s t0) ts xs k) (ts k)
    have hG' : (feed (reset s t0) ts xs (k + 1)).peak_count = 0 ∨
        ((feed (reset s t0) ts xs (k + 1)).peak_count = 1 ∧
          (feed (reset s t0) ts xs (k + 1)).peak_type = -1 ∧ p < k + 1) := by
      rw [feed_succ, run_of_processed _ _ hproc]
      have hcnt : (before (reset s t0) ts xs k).peak_count =
          (feed (reset s t0) ts xs k).peak_count := rfl
      have htyp : (before (reset s t0) ts xs k).peak_type =
          (feed (reset s t0) ts xs k).peak_type := rfl
      by_cases hv : (pushed (before (reset s t0) ts xs k) (ts k)).input_valid = true
      · by_cases hM : isMax (before (reset s t0) ts xs k) = true
        · obtain ⟨e1, -⟩ := c2 hv hM
          have := hmax hM
          rw [e1, hcnt]
          rcases hG with h | ⟨-, -, h⟩
          · exact Or.inl h
          · omega
        · have hM' : isMax (before (reset s t0) ts xs k) = false := by simpa using hM
          by_cases hm : isMin (before (reset s t0) ts xs k) = true
          · obtain ⟨e1, e2⟩ := c3 hv hM' hm
            have hpk' : p < k := by
              rcases hmin hm with h | h
              · rw [hv0 h] at hv; exact absurd hv (by simp)
              · exact h
            rw [e1, e2, hcnt, htyp]
            rcases hG with h | ⟨h1, h2, -⟩
            · rw [h]
              split_ifs
              · exact Or.inr ⟨by norm_num, rfl, by omega⟩
              · exact Or.inl rfl
            · rw [h1, h2]
              exact Or.inr ⟨by norm_num, rfl, by omega⟩
          · have hm' : isMin (before (reset s t0) ts xs k) = false := by simpa using hm
            obtain ⟨e1, e2⟩ := c1 (Or.inr ⟨hM', hm'⟩)
            rw [e1, e2, hcnt, htyp]
            rcases hG with h | ⟨h1, h2, h3⟩
            · exact Or.inl h
            · exact Or.inr ⟨h1, h2, by omega⟩
      · have hv' : (pushed (before (reset s t0) ts xs k) (ts k)).input_valid = false := by
          simpa using hv
        obtain ⟨e1, e2⟩ := c1 (Or.inl hv')
        rw [e1, e2, hcnt, htyp]
        rcases hG with h | ⟨h1, h2, h3⟩
        · exact Or.inl h
        · exact Or.inr ⟨h1, h2, by omega⟩
    refine ⟨fun j hj => ?_, hG'⟩
    rcases Nat.lt_succ_iff_lt_or_eq.mp (Nat.lt_succ_of_le hj) with h | h
    · exact hf j (by omega)
    · subst h
      have hle : (feed (reset s t0) ts xs (k + 1)).peak_count ≤ 2 := by
        rcases hG' with h | ⟨h, -, -⟩ <;> omega
      rw [feed_succ, run_of_processed _ _ hproc] at hle ⊢
      exact sample_small_count _ _ hproc.1 hle

/-- What a step classified as a window maximum does: peak type +1 and the
clock reading recorded as the ultimate-maximum timestamp. -/
theorem maxStep_effect (s : PID_Tuner) (ts : ℕ → ℕ) (xs : ℕ → ℚ) (k : ℕ)
    (h : MaxStep s ts xs k) :
    (feed s ts xs (k + 1)).peak_type = 1 ∧ (feed s ts xs (k + 1)).ts_ultimate = ts k := by
  obtain ⟨hproc, hv, hmax⟩ := h
  rw [feed_succ, run_of_processed _ _ hproc]
  constructor
  · rw [(sample_valid_fields _ _ hv).2.2.2.2.1, transitioned_of_max _ _ hmax]
  · rw [sample_eq, if_pos hv]
    have hl := later_stages_frame (pushed (before s ts xs k) (ts k)) (ts k)
      (before s ts xs k).input (isMax (before s ts xs k)) (isMin (before s ts xs k))
    have ht := congrArg PID_Tuner.ts_ultimate (transitioned_of_max _ (ts k) hmax)
    exact hl.2.2.2.trans ht

/-- From the 101st call on, a rising and falling sequence gives a window
maximum exactly at the calls up to the peak. -/
theorem updown_maxStep_iff (s : PID_Tuner) (t0 : ℕ) (ts : ℕ → ℕ) (xs : ℕ → ℚ) (p n : ℕ)
    (hud : UpDown xs p n) (hp : Paced s.sample_time t0 ts n) (k : ℕ) (h100 : 100 ≤ k)
    (hk : k < n) : MaxStep (reset s t0) ts xs k ↔ k ≤ p := by
  have hf := (updown_feed s t0 ts xs p n hud hp k (le_of_lt hk)).1
  constructor
  · intro h
    exact updown_isMax s t0 ts xs p n hud hp k hk hf h.2.2
  · intro hkp
    obtain ⟨-, -, -, iv, ir, -⟩ := feed_window s t0 ts xs k
      (fun j hj => hp j (by omega)) (fun j hj => hf j (Nat.le_of_lt hj))
    refine ⟨feed_processed s t0 ts xs k (fun j hj => hp j (by omega)) hf, ?_, ?_⟩
    · rw [pushed_eq]
      show (if (feed (reset s t0) ts xs k).input_idx + 1 ≥ 100 then true
        else (feed (reset s t0) ts xs k).input_valid) = true
      rw [iv]
      split_ifs
      · rfl
      · exact decide_eq_true h100
    · rw [isMax_iff]
      intro i hi
      have hj1 : k - 1 - (k - 1 - i) % 100 < k := by omega
      have hj2 : k ≤ k - 1 - (k - 1 - i) % 100 + 100 := by omega
      have hj3 : (k - 1 - (k - 1 - i) % 100) % 100 = i := by omega
      have hcell := ir (k - 1 - (k - 1 - i) % 100) hj1 hj2
      rw [hj3] at hcell
      show (feed (reset s t0) ts xs k).input_ring (i : ℤ) < xs k
      rw [hcell]
      exact hud.2.1 _ k hj1 hkp

/-- No call up to the peak of a rising and falling sequence gives a window
minimum. -/
theorem updown_no_minStep (s : PID_Tuner) (t0 : ℕ) (ts : ℕ → ℕ) (xs : ℕ → ℚ) (p n : ℕ)
    (hud : UpDown xs p n) (hp : Paced s.sample_time t0 ts n) (k : ℕ) (hkp : k ≤ p) :
    ¬ MinStep (reset s t0) ts xs k := by
  rintro ⟨-, hv, hmin⟩
  have hk : k < n := lt_of_le_of_lt hkp hud.1
  have hf := (updown_feed s t0 ts xs p n hud hp k (le_of_lt hk)).1
  rcases updown_isMin s t0 ts xs p n hud hp k hk hf hmin with h | h
  · subst h
    rw [pushed_eq] at hv
    exact Bool.false_ne_true hv
  · omega

/-! ## Window-extremum detection on a rising and falling sequence -/

theorem everySecond_paced (n : ℕ) : Paced 1000 0 everySecond n := by
  intro k _
  have h1 : toU32 1000 = 1000 := by decide
  have h2 : u32sub (everySecond k) (prevTime 0 everySecond k) = 1000 := by
    unfold u32sub prevTime everySecond
    split_ifs with h
    · subst h; decide
    · have : ((1000 * (k + 1) : ℕ) : ℤ) - ((1000 * (k - 1 + 1) : ℕ) : ℤ) = 1000 := by
        have hk : k - 1 + 1 = k := by omega
        rw [hk]
        push_cast
        ring
      rw [this]
      decide
  rw [h1, h2]

theorem risingFalling_updown : UpDown risingFalling 101 103 := by
  refine ⟨by norm_num, fun i j hij hj => ?_, fun i j hi hij hj => ?_⟩
  · unfold risingFalling
    rw [if_pos (by omega), if_pos hj]
    exact_mod_cast hij
  · have h1 : i = 101 := by omega
    have h2 : j = 102 := by omega
    subst h1 h2
    unfold risingFalling
    norm_num

/-- C8, as stated, fails: on the sequence 0, 1, ..., 101, 100 (length 103 =
W+3, peak at index 101), fed one sample per processed step from `reset`, it is
not the case that exactly the peak's step is classified as a window maximum
and no earlier step as a window minimum: the step before the peak's is
classified as a window maximum too. -/
theorem window_maximum_not_unique :
    UpDown risingFalling 101 103 ∧
    Paced (construct (blank 0) 0).sample_time 0 everySecond 103 ∧
    ¬ ((∀ k, k < 103 →
          (MaxStep (reset (construct (blank 0) 0) 0) everySecond risingFalling k ↔ k = 101)) ∧
       (∀ k, k < 101 →
          ¬ MinStep (reset (construct (blank 0) 0) 0) everySecond risingFalling k)) := by
  refine ⟨risingFalling_updown, everySecond_paced 103, fun h => ?_⟩
  have h100 : MaxStep (reset (construct (blank 0) 0) 0) everySecond risingFalling 100 :=
    (updown_maxStep_iff (construct (blank 0) 0) 0 everySecond risingFalling 101 103
      risingFalling_updown (everySecond_paced 103) 100 (by norm_num) (by norm_num)).mpr
      (by norm_num)
  have := (h.1 100 (by norm_num)).mp h100
  omega

/-! ## What `reset` leaves behind -/

theorem recompute_Ku (s : PID_Tuner) (a b : Bool) :
    (recompute s a b).Ku =
      if (a || b) = true then
        4 * (s.output_high - s.output_low) / ((s.input_max - s.input_min) * 3.14159)
      else s.Ku := by
  unfold recompute
  dsimp only
  split_ifs <;> rfl

theorem peakTransition_Ku (s : PID_Tuner) (now : ℕ) (cur : ℚ) (a b : Bool) :
    (peakTransition s now cur a b).Ku = s.Ku ∧
    (peakTransition s now cur a b).output_high = s.output_high ∧
    (peakTransition s now cur a b).output_low = s.output_low := by
  unfold peakTransition
  dsimp only
  split_ifs <;> exact ⟨rfl, rfl, rfl⟩

/-- The ultimate gain after a processed step with a valid window. -/
theorem sample_Ku (s : PID_Tuner) (now : ℕ) (hv : (pushed s now).input_valid = true) :
    (sample s now).2.Ku =
      if (isMax s || isMin s) = true then
        4 * (s.output_high - s.output_low) /
          (((pushed s now).input_max - (pushed s now).input_min) * 3.14159)
      else s.Ku := by
  have hp := peakTransition_Ku (pushed s now) now s.input (isMax s) (isMin s)
  have hf := peakTransition_frame (pushed s now) now s.input (isMax s) (isMin s)
  have hK : (pushed s now).Ku = s.Ku := by rw [pushed_eq]
  have hH : (pushed s now).output_high = s.output_high := by rw [pushed_eq]
  have hL : (pushed s now).output_low = s.output_low := by rw [pushed_eq]
  rw [sample_eq, if_pos hv]
  dsimp only
  rw [(failsafe_frame _).2.2.2.2.2.2.2.2.2.2.1, recompute_Ku]
  unfold transitioned
  rw [hp.1, hp.2.1, hp.2.2, hf.2.2.2.2.2.2.1, hf.2.2.2.2.2.2.2, hK, hH, hL]

/-- While the ring is being filled after `reset` (the first 99 calls), the
tuner does not terminate and the gains keep their reset values. -/
theorem feed_fill (s : PID_Tuner) (t0 : ℕ) (ts : ℕ → ℕ) (xs : ℕ → ℚ)
    (hp : Paced s.sample_time t0 ts 99) :
    ∀ k, k ≤ 99 →
      (∀ j, j ≤ k → (feed (reset s t0) ts xs j).finished = false) ∧
      (feed (reset s t0) ts xs k).Ku = 1 ∧ (feed (reset s t0) ts xs k).Pu = 1 := by
  intro k
  induction k with
  | zero =>
    intro _
    refine ⟨fun j hj => ?_, by simp only [feed, reset]; norm_num,
      by simp only [feed, reset]; norm_num⟩
    have : j = 0 := by omega
    subst this
    rfl
  | succ k ih =>
    intro hk
    obtain ⟨hf, hK, hP⟩ := ih (by omega)
    have hproc := feed_processed s t0 ts xs k (fun j hj => hp j (by omega)) hf
    obtain ⟨-, -, ii, iv, -⟩ := feed_window s t0 ts xs k
      (fun j hj => hp j (by omega)) (fun j hj => hf j (Nat.le_of_lt hj))
    have hv : (pushed (before (reset s t0) ts xs k) (ts k)).input_valid = false := by
      rw [pushed_eq]
      show (if (feed (reset s t0) ts xs k).input_idx + 1 ≥ 100 then true
        else (feed (reset s t0) ts xs k).input_valid) = false
      rw [ii, iv, if_neg (by omega)]
      exact decide_eq_false (by omega)
    have hstep : feed (reset s t0) ts xs (k + 1) =
        pushed (before (reset s t0) ts xs k) (ts k) := by
      rw [feed_succ, run_of_processed _ _ hproc, sample_invalid _ _ hv]
    refine ⟨fun j hj => ?_, ?_, ?_⟩
    · rcases Nat.lt_succ_iff_lt_or_eq.mp (Nat.lt_succ_of_le hj) with h | h
      · exact hf j (by omega)
      · subst h
        rw [hstep, (pushed_frame _ _).1]
        exact hf k (le_refl k)
    · rw [hstep, pushed_eq]; exact hK
    · rw [hstep, pushed_eq]; exact hP

theorem rising_extrema : ∀ k : ℕ, runMax 0 rising k = k ∧ runMin 0 rising k = 0
  | 0 => ⟨by simp [runMax], by simp [runMin]⟩
  | k + 1 => by
    obtain ⟨h1, h2⟩ := rising_extrema k
    constructor
    · rw [runMax, h1, if_pos (by unfold rising; linarith)]
      unfold rising
      push_cast
      rfl
    · rw [runMin, h2, if_neg (not_lt.mpr (by unfold rising; positivity))]

/-- The 100th call after `reset` (call number `k = 99`): the window becomes
valid, the sample has been compared with the 99 samples fed since the reset
and with cell 99, which still holds what it held before the reset, and the
gain is recomputed if that comparison gives an extremum. -/
theorem hundredth_step (s : PID_Tuner) (t0 : ℕ) (ts : ℕ → ℕ) (xs : ℕ → ℚ) (k : ℕ)
    (hk : k = 99) (hp : Paced s.sample_time t0 ts (k + 1)) :
    (∀ i : ℕ, i < k → (before (reset s t0) ts xs k).input_ring (i : ℤ) = xs i) ∧
    (before (reset s t0) ts xs k).input_ring (k : ℤ) = s.input_ring (k : ℤ) ∧
    (feed (reset s t0) ts xs (k + 1)).Ku =
      if (isMax (before (reset s t0) ts xs k) || isMin (before (reset s t0) ts xs k)) = true
      then 4 * (500 - 0) /
        ((runMax s.input xs (k + 1) - runMin s.input xs (k + 1)) * 3.14159)
      else 1 := by
  obtain ⟨hf, hK, -⟩ := feed_fill s t0 ts xs (fun j hj => hp j (by omega)) k (by omega)
  have hproc := feed_processed s t0 ts xs k hp hf
  obtain ⟨ic, -, ii, -, ir, is, -, -⟩ := feed_window s t0 ts xs k
    (fun j hj => hp j (by omega)) (fun j hj => hf j (Nat.le_of_lt hj))
  have hv : (pushed (before (reset s t0) ts xs k) (ts k)).input_valid = true := by
    rw [pushed_eq]
    show (if (feed (reset s t0) ts xs k).input_idx + 1 ≥ 100 then true
      else (feed (reset s t0) ts xs k).input_valid) = true
    rw [ii, if_pos (by omega)]
  refine ⟨fun i hi => ?_, is (by omega) _ (le_refl _), ?_⟩
  · have h := ir i hi (by omega)
    rw [Nat.mod_eq_of_lt (by omega)] at h
    exact h
  · have hf' : ∀ j, j < k + 1 → (feed (reset s t0) ts xs j).finished = false :=
      fun j hj => hf j (by omega)
    obtain ⟨-, -, -, -, -, -, iM, im⟩ := feed_window s t0 ts xs (k + 1) hp hf'
    rw [feed_succ, run_of_processed _ _ hproc] at iM im
    rw [(sample_extrema_fields _ _).2.1] at iM
    rw [(sample_extrema_fields _ _).2.2] at im
    have hH : (before (reset s t0) ts xs k).output_high = 500 := by
      have := congrArg (fun c => c.2.2.2.1) ic
      simpa [config, reset] using this
    have hL : (before (reset s t0) ts xs k).output_low = 0 := by
      have := congrArg (fun c => c.2.2.2.2) ic
      simpa [config, reset] using this
    have hK' : (before (reset s t0) ts xs k).Ku = 1 := hK
    rw [feed_succ, run_of_processed _ _ hproc, sample_Ku _ _ hv, iM, im, hH, hL, hK']

/-- The 100th call after `reset` on the samples 1, 2, ..., 100, from an object
whose ring cells all held `r` before the reset. -/
theorem stale_cell_step (r : ℚ) (k : ℕ) (hk : k = 99) :
    isMin (before (reset (construct (blank r) 0) 0) everySecond rising k) = false ∧
    (isMax (before (reset (construct (blank r) 0) 0) everySecond rising k) = true ↔
      r < 100) ∧
    (feed (reset (construct (blank r) 0) 0) everySecond rising (k + 1)).Ku =
      if (isMax (before (reset (construct (blank r) 0) 0) everySecond rising k) ||
          isMin (before (reset (construct (blank r) 0) 0) everySecond rising k)) = true
      then 2000000 / 314159 else 1 := by
  obtain ⟨hcell, hstale, hKu⟩ := hundredth_step (construct (blank r) 0) 0 everySecond rising
    k hk (everySecond_paced (k + 1))
  have hstale' :
      (before (reset (construct (blank r) 0) 0) everySecond rising k).input_ring (k : ℤ) = r :=
    hstale
  have hin : (before (reset (construct (blank r) 0) 0) everySecond rising k).input =
      rising k := rfl
  have hmin : isMin (before (reset (construct (blank r) 0) 0) everySecond rising k) =
      false := by
    rw [Bool.eq_false_iff, Ne, isMin_iff]
    intro h
    have h98 := h (k - 1) (by omega)
    rw [hcell (k - 1) (by omega), hin] at h98
    unfold rising at h98
    have : ((k - 1 : ℕ) : ℚ) ≤ (k : ℚ) := by exact_mod_cast Nat.sub_le k 1
    linarith
  have hmax : isMax (before (reset (construct (blank r) 0) 0) everySecond rising k) = true ↔
      r < 100 := by
    have h100 : rising k = 100 := by
      subst hk
      unfold rising
      norm_num
    rw [isMax_iff, hin, h100]
    constructor
    · intro h
      have h99 := h k (by omega)
      rw [hstale'] at h99
      exact h99
    · intro hr i hi
      by_cases hik : i < k
      · rw [hcell i hik]
        unfold rising
        have : (i : ℚ) < k := by exact_mod_cast hik
        have : (k : ℚ) = 99 := by exact_mod_cast hk
        linarith
      · have : i = k := by omega
        subst this
        rw [hstale']
        exact hr
  refine ⟨hmin, hmax, ?_⟩
  have hin0 : (construct (blank r) 0).input = 0 := rfl
  rw [hKu, hin0, (rising_extrema (k + 1)).1, (rising_extrema (k + 1)).2]
  have hk1 : ((k + 1 : ℕ) : ℚ) = 100 := by
    subst hk
    norm_num
  rw [hk1]
  norm_num

/-- C10, evaluated where it fails. Two tuner objects with the same binding,
noise band and sample period, one whose ring cells held 0 and one whose ring
cells held 1000, are reset at the same clock value and process value and fed
the same samples 1, 2, ..., 100 at the same clock readings: after the 100th
call the first has Ku = 2000000/314159 and the second still has Ku = 1, because
the 100th call compares its sample with `input_ring[99]`, which no call since
the reset has written. -/
theorem reset_keeps_stale_ring_cell :
    (construct (blank 0) 0).noise_band = (construct (blank 1000) 0).noise_band ∧
    (construct (blank 0) 0).sample_time = (construct (blank 1000) 0).sample_time ∧
    (construct (blank 0) 0).input = (construct (blank 1000) 0).input ∧
    (construct (blank 0) 0).output = (construct (blank 1000) 0).output ∧
    (feed (reset (construct (blank 0) 0) 0) everySecond rising 100).Ku = 2000000 / 314159 ∧
    (feed (reset (construct (blank 1000) 0) 0) everySecond rising 100).Ku = 1 := by
  refine ⟨rfl, rfl, rfl, rfl, ?_, ?_⟩
  · obtain ⟨hmin, hmax, hKu⟩ := stale_cell_step 0 99 rfl
    rw [hmax.mpr (by norm_num), hmin] at hKu
    exact hKu
  · obtain ⟨hmin, hmax, hKu⟩ := stale_cell_step 1000 99 rfl
    have hM : isMax (before (reset (construct (blank 1000) 0) 0) everySecond rising 99) =
        false := by
      rw [Bool.eq_false_iff, Ne, hmax]
      norm_num
    rw [hM, hmin] at hKu
    exact hKu

/-! ## Ultimate gain and ultimate period -/

theorem recompute_Pu (s : PID_Tuner) (a b : Bool) :
    (recompute s a b).Pu =
      if (a || b) = true ∧ 2 < s.peak_count then
        (u32sub s.ts_ultimate s.ts_penultimate : ℚ) / 1000
      else s.Pu := by
  unfold recompute
  dsimp only
  split_ifs with h1 h2 h3 h4 h5 h6 <;> first | rfl | (exfalso; tauto)

theorem peakTransition_Pu (s : PID_Tuner) (now : ℕ) (cur : ℚ) (a b : Bool) :
    (peakTransition s now cur a b).Pu = s.Pu := by
  unfold peakTransition
  dsimp only
  split_ifs <;> rfl

/-- The ultimate period after a processed step with a valid window. -/
theorem sample_Pu (s : PID_Tuner) (now : ℕ) (hv : (pushed s now).input_valid = true) :
    (sample s now).2.Pu =
      if (isMax s || isMin s) = true ∧ 2 < (transitioned s now).peak_count then
        (u32sub (transitioned s now).ts_ultimate (transitioned s now).ts_penultimate : ℚ) / 1000
      else s.Pu := by
  have hP : (transitioned s now).Pu = s.Pu := by
    unfold transitioned
    rw [peakTransition_Pu, pushed_eq]
  rw [sample_eq, if_pos hv]
  dsimp only
  rw [(failsafe_frame _).2.2.2.2.2.2.2.2.2.2.2, recompute_Pu, hP]

/-- The two maximum timestamps after a processed step with a valid window. -/
theorem sample_valid_times (s : PID_Tuner) (now : ℕ)
    (hv : (pushed s now).input_valid = true) :
    (sample s now).2.ts_ultimate = (transitioned s now).ts_ultimate ∧
    (sample s now).2.ts_penultimate = (transitioned s now).ts_penultimate := by
  rw [sample_eq, if_pos hv]
  dsimp only
  exact ⟨by rw [(failsafe_times _).2.1, (recompute_times _ _ _).2.1],
    by rw [(failsafe_times _).2.2, (recompute_times _ _ _).2.2]⟩

/-- A processed step whose window is not valid, or whose sample is neither a
window maximum nor a window minimum, leaves both gains as they were. -/
theorem sample_gains_unchanged (s : PID_Tuner) (now : ℕ)
    (h : (pushed s now).input_valid = false ∨ (isMax s = false ∧ isMin s = false)) :
    (sample s now).2.Ku = s.Ku ∧ (sample s now).2.Pu = s.Pu := by
  by_cases hv : (pushed s now).input_valid = true
  · rcases h with h | ⟨h1, h2⟩
    · rw [h] at hv; exact absurd hv (by simp)
    · rw [sample_Ku s now hv, sample_Pu s now hv]
      simp [h1, h2]
  · have hv' : (pushed s now).input_valid = false := by simpa using hv
    rw [sample_invalid s now hv', pushed_eq]
    exact ⟨rfl, rfl⟩

theorem run_valid_iff (s : PID_Tuner) (now : ℕ) (hproc : Processed s now) :
    (run s now).2.input_valid = (pushed s now).input_valid := by
  rw [run_of_processed _ _ hproc, (sample_window_fields s now).1]

/-- The gain formula on the object after a processed step with an extremum
event, with the constant 3.14159 of the source. -/
theorem run_Ku_of_event (s : PID_Tuner) (now : ℕ) (hproc : Processed s now)
    (hv : (run s now).2.input_valid = true) (hev : isMax s = true ∨ isMin s = true) :
    (run s now).2.Ku =
      4 * ((run s now).2.output_high - (run s now).2.output_low) /
        (((run s now).2.input_max - (run s now).2.input_min) * 3.14159) := by
  have hpv : (pushed s now).input_valid = true := by rw [← run_valid_iff s now hproc]; exact hv
  have hc := run_config s now
  simp only [config, Prod.mk.injEq] at hc
  obtain ⟨-, -, -, hH, hL⟩ := hc
  rw [hH, hL, run_of_processed _ _ hproc, (sample_extrema_fields s now).2.1,
    (sample_extrema_fields s now).2.2, sample_Ku s now hpv]
  rw [if_pos (by rcases hev with h | h <;> simp [h])]

theorem midRun_run_fields (n : ℤ) :
    (run (midRun n) 1000).2.output_high = 500 ∧
    (run (midRun n) 1000).2.output_low = 0 ∧
    (run (midRun n) 1000).2.input_max = 100 ∧
    (run (midRun n) 1000).2.input_min = -100 := by
  have hc := run_config (midRun n) 1000
  simp only [config, Prod.mk.injEq] at hc
  obtain ⟨-, -, -, hH, hL⟩ := hc
  refine ⟨hH, hL, ?_, ?_⟩
  · rw [run_of_processed _ _ (midRun_processed n), (sample_extrema_fields _ _).2.1, pushed_eq]
    simp only [midRun, blank]
    norm_num
  · rw [run_of_processed _ _ (midRun_processed n), (sample_extrema_fields _ _).2.2, pushed_eq]
    simp only [midRun, blank]
    norm_num

/-- C11, as stated, fails: on a processed step with a valid window and a
window minimum (running extrema 100 and -100, output levels 500 and 0) the
gain written is not 4·(output_high − output_low)/(π·(running_max −
running_min)): the source divides by 3.14159, not by π. -/
theorem ultimate_gain_not_with_pi :
    Processed (midRun 2) 1000 ∧ (run (midRun 2) 1000).2.input_valid = true ∧
    isMin (midRun 2) = true ∧
    (((run (midRun 2) 1000).2.Ku : ℝ) ≠
      4 * (((run (midRun 2) 1000).2.output_high : ℝ) -
            ((run (midRun 2) 1000).2.output_low : ℝ)) /
        (Real.pi * (((run (midRun 2) 1000).2.input_max : ℝ) -
            ((run (midRun 2) 1000).2.input_min : ℝ)))) := by
  refine ⟨midRun_processed 2, midRun_run_valid 2, midRun_isMin 2, ?_⟩
  have hKu := run_Ku_of_event (midRun 2) 1000 (midRun_processed 2) (midRun_run_valid 2)
    (Or.inr (midRun_isMin 2))
  obtain ⟨hH, hL, hM, hm⟩ := midRun_run_fields 2
  rw [hH, hL, hM, hm] at hKu
  rw [hKu, hH, hL, hM, hm]
  intro h
  have hpi := Real.pi_gt_d6
  have hpos := Real.pi_pos
  push_cast at h
  field_simp at h
  norm_num at h
  linarith

/-- C11, amended. Ultimate gain: after every processed step with a valid
window on which the sample is a window maximum or minimum, Ku =
4·(output_high − output_low) / (3.14159·(running_max − running_min)), with the
running extrema already updated by this step's sample (when they differ, Ku
times that denominator is 4·(output_high − output_low)); on every processed
step with no maximum or minimum event, or with the window not yet valid, Ku
and Pu are unchanged. -/
theorem ultimate_gain (s : PID_Tuner) (now : ℕ) (hproc : Processed s now) :
    ((run s now).2.input_valid = true → (isMax s = true ∨ isMin s = true) →
      (run s now).2.Ku =
        4 * ((run s now).2.output_high - (run s now).2.output_low) /
          (((run s now).2.input_max - (run s now).2.input_min) * 3.14159) ∧
      ((run s now).2.input_max ≠ (run s now).2.input_min →
        (run s now).2.Ku * (((run s now).2.input_max - (run s now).2.input_min) * 3.14159) =
          4 * ((run s now).2.output_high - (run s now).2.output_low))) ∧
    (((run s now).2.input_valid = false ∨ (isMax s = false ∧ isMin s = false)) →
      (run s now).2.Ku = s.Ku ∧ (run s now).2.Pu = s.Pu) := by
  constructor
  · intro hv hev
    have hKu := run_Ku_of_event s now hproc hv hev
    refine ⟨hKu, fun hne => ?_⟩
    have hd : ((run s now).2.input_max - (run s now).2.input_min) * (3.14159 : ℚ) ≠ 0 :=
      mul_ne_zero (sub_ne_zero.mpr hne) (by norm_num)
    rw [hKu, div_mul_cancel₀ _ hd]
  · intro h
    rw [run_valid_iff s now hproc] at h
    rw [run_of_processed _ _ hproc]
    exact sample_gains_unchanged s now h

theorem ultimate_gain_witness :
    Processed (midRun 2) 1000 ∧ (run (midRun 2) 1000).2.Ku = 1000000 / 314159 := by
  have h := (ultimate_gain (midRun 2) 1000 (midRun_processed 2)).1 (midRun_run_valid 2)
    (Or.inr (midRun_isMin 2))
  obtain ⟨hH, hL, hM, hm⟩ := midRun_run_fields 2
  refine ⟨midRun_processed 2, ?_⟩
  rw [h.1, hH, hL, hM, hm]
  norm_num

/-! ## The denominator of the gain formula -/

theorem seeded_reset (s : PID_Tuner) (t0 : ℕ) : Seeded (reset s t0) :=
  ⟨le_refl _, by show (0 : ℤ) < 100; norm_num, Or.inl ⟨rfl, rfl⟩⟩

theorem seeded_sample (s : PID_Tuner) (now : ℕ) (h : Seeded s) : Seeded (sample s now).2 := by
  obtain ⟨h0, h1, -⟩ := h
  obtain ⟨-, p2, p3, p4, p5, -⟩ := sample_pushed_fields s now
  have hprev : prevIdx (sample s now).2.input_idx = s.input_idx := by
    rw [p5]
    unfold prevIdx
    split_ifs <;> omega
  refine ⟨by rw [p5]; split_ifs <;> omega, by rw [p5]; split_ifs <;> omega, Or.inr ?_⟩
  rw [hprev, p2, p3, p4]
  have hcell : store s.input_ring s.input_idx s.input s.input_idx = s.input := by
    unfold store
    rw [if_pos rfl]
  rw [hcell]
  constructor
  · split_ifs with h <;> linarith
  · split_ifs with h <;> linarith

theorem seeded_run (s : PID_Tuner) (now : ℕ) (h : Seeded s) : Seeded (run s now).2 := by
  unfold run
  split_ifs
  · exact h
  · exact h
  · exact seeded_sample s now h

theorem seeded_feed (s : PID_Tuner) (t0 : ℕ) (ts : ℕ → ℕ) (xs : ℕ → ℚ) :
    ∀ k, Seeded (feed (reset s t0) ts xs k)
  | 0 => seeded_reset s t0
  | k + 1 => seeded_run _ _ (seeded_feed s t0 ts xs k)

/-- Whenever `Ku` is recomputed, the sample differs from the one stored before
it, so the running extrema differ. -/
theorem recompute_amplitude (s : PID_Tuner) (now : ℕ) (hs : Seeded s)
    (h : RecomputesKu s now) : (pushed s now).input_min < (pushed s now).input_max := by
  obtain ⟨-, hv, hev⟩ := h
  obtain ⟨h0, h1, hlast⟩ := hs
  have hmax : (pushed s now).input_max =
      if s.input > s.input_max then s.input else s.input_max := by rw [pushed_eq]
  have hmin : (pushed s now).input_min =
      if s.input < s.input_min then s.input else s.input_min := by rw [pushed_eq]
  have hval : (pushed s now).input_valid =
      if s.input_idx + 1 ≥ 100 then true else s.input_valid := by rw [pushed_eq]
  have hp0 : 0 ≤ prevIdx s.input_idx := by unfold prevIdx; split_ifs <;> omega
  have hp1 : prevIdx s.input_idx < 100 := by unfold prevIdx; split_ifs <;> omega
  have hcast : (((prevIdx s.input_idx).toNat : ℕ) : ℤ) = prevIdx s.input_idx :=
    Int.toNat_of_nonneg hp0
  have hlt : (prevIdx s.input_idx).toNat < 100 := by omega
  rcases hlast with ⟨hi, hf⟩ | ⟨hlo, hhi⟩
  · rw [hval, hi, hf] at hv
    simp at hv
  · rw [hmax, hmin]
    rcases hev with hM | hm
    · have hc := (isMax_iff s).mp hM _ hlt
      rw [hcast] at hc
      split_ifs <;> linarith
    · have hc := (isMin_iff s).mp hm _ hlt
      rw [hcast] at hc
      split_ifs <;> linarith

theorem recompute_amplitude_feed (s : PID_Tuner) (t0 : ℕ) (ts : ℕ → ℕ) (xs : ℕ → ℚ) (k : ℕ)
    (h : RecomputesKu (before (reset s t0) ts xs k) (ts k)) :
    (feed (reset s t0) ts xs (k + 1)).input_min <
      (feed (reset s t0) ts xs (k + 1)).input_max := by
  have hs : Seeded (before (reset s t0) ts xs k) := seeded_feed s t0 ts xs k
  have := recompute_amplitude _ _ hs h
  rw [feed_succ, run_of_processed _ _ h.1, (sample_extrema_fields _ _).2.1,
    (sample_extrema_fields _ _).2.2]
  exact this

theorem quiet_reset (s : PID_Tuner) (t0 : ℕ) (c : ℚ) : Quiet c (reset s t0) := by
  refine ⟨rfl, ?_, ?_, rfl, le_refl _, ?_, Or.inl ⟨rfl, rfl⟩⟩
  · simp only [reset]; norm_num
  · simp only [reset]; norm_num
  · show (0 : ℤ) < 100; norm_num

/-- A sample equal to the one stored last is neither a window maximum nor a
window minimum. -/
theorem quiet_no_event (c : ℚ) (s : PID_Tuner) (now : ℕ) (h : Quiet c s) (hin : s.input = c) :
    (pushed s now).input_valid = false ∨ (isMax s = false ∧ isMin s = false) := by
  obtain ⟨-, -, -, -, h0, h1, hlast⟩ := h
  rcases hlast with ⟨hi, hv⟩ | hcell
  · left
    rw [pushed_eq]
    show (if s.input_idx + 1 ≥ 100 then true else s.input_valid) = false
    rw [hi, hv]
    rfl
  · right
    have hp0 : 0 ≤ prevIdx s.input_idx := by unfold prevIdx; split_ifs <;> omega
    have hp1 : prevIdx s.input_idx < 100 := by unfold prevIdx; split_ifs <;> omega
    have hlt : (prevIdx s.input_idx).toNat < 100 := by omega
    constructor
    · rw [Bool.eq_false_iff, Ne, isMax_iff]
      intro h
      have := h _ hlt
      rw [Int.toNat_of_nonneg hp0, hcell, hin] at this
      exact lt_irrefl _ this
    · rw [Bool.eq_false_iff, Ne, isMin_iff]
      intro h
      have := h _ hlt
      rw [Int.toNat_of_nonneg hp0, hcell, hin] at this
      exact lt_irrefl _ this

theorem quiet_sample (c : ℚ) (s : PID_Tuner) (now : ℕ) (h : Quiet c s) (hin : s.input = c) :
    Quiet c (sample s now).2 := by
  have hq := quiet_no_event c s now h hin
  obtain ⟨hf, hK, hP, hc, h0, h1, -⟩ := h
  obtain ⟨g1, g2⟩ := sample_gains_unchanged s now hq
  obtain ⟨c1, -⟩ := (sample_count_type s now).1 hq
  obtain ⟨-, -, -, p4, p5, -⟩ := sample_pushed_fields s now
  have hcnt : (sample s now).2.peak_count = 0 := c1.trans hc
  have hprev : prevIdx (sample s now).2.input_idx = s.input_idx := by
    rw [p5]
    unfold prevIdx
    split_ifs <;> omega
  refine ⟨sample_small_count s now hf (by rw [hcnt]; norm_num), g1.trans hK, g2.trans hP,
    hcnt, by rw [p5]; split_ifs <;> omega, by rw [p5]; split_ifs <;> omega, Or.inr ?_⟩
  rw [hprev, p4]
  unfold store
  rw [if_pos rfl, hin]

theorem quiet_run (c : ℚ) (s : PID_Tuner) (now : ℕ) (h : Quiet c s) (hin : s.input = c) :
    Quiet c (run s now).2 := by
  unfold run
  split_ifs
  · exact h
  · exact h
  · exact quiet_sample c s now h hin

/-- On a flat input (every sample equal to `c`) fed from `reset`, with any
clock readings, the tuner stays quiet. -/
theorem quiet_feed (s : PID_Tuner) (t0 : ℕ) (ts : ℕ → ℕ) (c : ℚ) :
    ∀ k, Quiet c (feed (reset s t0) ts (fun _ => c) k)
  | 0 => quiet_reset s t0 c
  | k + 1 => quiet_run c _ _ (quiet_feed s t0 ts c k) rfl

/-- C12, as stated, fails: there is no input sequence, flat or not, fed from
`reset` with any clock readings, on which a step recomputes Ku with
running_max − running_min = 0. -/
theorem no_input_divides_by_zero :
    ¬ ∃ (s : PID_Tuner) (t0 : ℕ) (ts : ℕ → ℕ) (xs : ℕ → ℚ) (k : ℕ),
      RecomputesKu (before (reset s t0) ts xs k) (ts k) ∧
      (feed (reset s t0) ts xs (k + 1)).input_max -
        (feed (reset s t0) ts xs (k + 1)).input_min = 0 := by
  rintro ⟨s, t0, ts, xs, k, hrec, hzero⟩
  have := recompute_amplitude_feed s t0 ts xs k hrec
  linarith

/-- C12, amended. Flat input never reaches the division: on a flat input
sequence fed from `reset` (every sample equal to the seed, so that running max
equals running min) no step recomputes Ku, and Ku and Pu keep their reset
value 1; and on every input sequence fed from `reset`, a step that recomputes
Ku does so with running_min < running_max, so the gain formula is never
evaluated with a zero denominator. -/
theorem gain_denominator_nonzero (s : PID_Tuner) (t0 : ℕ) (ts : ℕ → ℕ) (xs : ℕ → ℚ)
    (k : ℕ) :
    ¬ RecomputesKu (before (reset s t0) ts (fun _ => s.input) k) (ts k) ∧
    (feed (reset s t0) ts (fun _ => s.input) k).Ku = 1 ∧
    (feed (reset s t0) ts (fun _ => s.input) k).Pu = 1 ∧
    (RecomputesKu (before (reset s t0) ts xs k) (ts k) →
      (feed (reset s t0) ts xs (k + 1)).input_min <
        (feed (reset s t0) ts xs (k + 1)).input_max) := by
  have hq := quiet_feed s t0 ts s.input k
  refine ⟨?_, hq.2.1, hq.2.2.1, recompute_amplitude_feed s t0 ts xs k⟩
  rintro ⟨-, hv, hev⟩
  have hq' : Quiet s.input (before (reset s t0) ts (fun _ => s.input) k) := hq
  rcases quiet_no_event s.input _ (ts k) hq' rfl with h | ⟨h1, h2⟩
  · rw [h] at hv
    exact Bool.false_ne_true hv
  · rcases hev with h | h
    · rw [h1] at h; exact Bool.false_ne_true h
    · rw [h2] at h; exact Bool.false_ne_true h

theorem gain_denominator_nonzero_witness :
    RecomputesKu (before (reset (construct (blank 0) 0) 0) everySecond risingFalling 101)
      (everySecond 101) ∧
    (feed (reset (construct (blank 0) 0) 0) everySecond risingFalling (101 + 1)).input_min <
      (feed (reset (construct (blank 0) 0) 0) everySecond risingFalling (101 + 1)).input_max := by
  have hmax : MaxStep (reset (construct (blank 0) 0) 0) everySecond risingFalling 101 :=
    (updown_maxStep_iff (construct (blank 0) 0) 0 everySecond risingFalling 101 103
      risingFalling_updown (everySecond_paced 103) 101 (by norm_num) (by norm_num)).mpr
      (le_refl 101)
  have hrec : RecomputesKu
      (before (reset (construct (blank 0) 0) 0) everySecond risingFalling 101)
      (everySecond 101) := ⟨hmax.1, hmax.2.1, Or.inl hmax.2.2⟩
  exact ⟨hrec, (gain_denominator_nonzero (construct (blank 0) 0) 0 everySecond risingFalling
    101).2.2.2 hrec⟩

/-! ## The window gate -/

/-- Each of the first 99 calls after `reset` stops at line 79: the object after
it is the one with the sample stored, nothing else done. -/
theorem feed_fill_step (s : PID_Tuner) (t0 : ℕ) (ts : ℕ → ℕ) (xs : ℕ → ℚ)
    (hp : Paced s.sample_time t0 ts 99) (k : ℕ) (hk : k < 99) :
    Processed (before (reset s t0) ts xs k) (ts k) ∧
    (pushed (before (reset s t0) ts xs k) (ts k)).input_valid = false ∧
    feed (reset s t0) ts xs (k + 1) = pushed (before (reset s t0) ts xs k) (ts k) := by
  obtain ⟨hf, -, -⟩ := feed_fill s t0 ts xs hp k (by omega)
  have hproc := feed_processed s t0 ts xs k (fun j hj => hp j (by omega)) hf
  obtain ⟨-, -, ii, iv, -⟩ := feed_window s t0 ts xs k
    (fun j hj => hp j (by omega)) (fun j hj => hf j (Nat.le_of_lt hj))
  have hv : (pushed (before (reset s t0) ts xs k) (ts k)).input_valid = false := by
    rw [pushed_eq]
    show (if (feed (reset s t0) ts xs k).input_idx + 1 ≥ 100 then true
      else (feed (reset s t0) ts xs k).input_valid) = false
    rw [ii, iv, if_neg (by omega)]
    exact decide_eq_false (by omega)
  exact ⟨hproc, hv, by rw [feed_succ, run_of_processed _ _ hproc, sample_invalid _ _ hv]⟩

/-- During the first 99 calls after `reset` the peak bookkeeping is as `reset`
left it. -/
theorem feed_fill_peaks (s : PID_Tuner) (t0 : ℕ) (ts : ℕ → ℕ) (xs : ℕ → ℚ)
    (hp : Paced s.sample_time t0 ts 99) :
    ∀ k, k ≤ 99 →
      (feed (reset s t0) ts xs k).peak_type = 0 ∧
      (feed (reset s t0) ts xs k).peak_count = 0 ∧
      (feed (reset s t0) ts xs k).peaks = s.peaks ∧
      (feed (reset s t0) ts xs k).ts_ultimate = s.ts_ultimate ∧
      (feed (reset s t0) ts xs k).ts_penultimate = s.ts_penultimate := by
  intro k
  induction k with
  | zero => intro _; exact ⟨rfl, rfl, rfl, rfl, rfl⟩
  | succ k ih =>
    intro hk
    obtain ⟨-, -, hstep⟩ := feed_fill_step s t0 ts xs hp k (by omega)
    rw [hstep, pushed_eq]
    exact ih (by omega)

/-- The 100th call after `reset` (call number `k = 99`) is processed and finds
the window valid at line 78. -/
theorem hundredth_step_valid (s : PID_Tuner) (t0 : ℕ) (ts : ℕ → ℕ) (xs : ℕ → ℚ) (k : ℕ)
    (hk : k = 99) (hp : Paced s.sample_time t0 ts (k + 1)) :
    Processed (before (reset s t0) ts xs k) (ts k) ∧
    (pushed (before (reset s t0) ts xs k) (ts k)).input_valid = true := by
  obtain ⟨hf, -, -⟩ := feed_fill s t0 ts xs (fun j hj => hp j (by omega)) k (by omega)
  have hproc := feed_processed s t0 ts xs k hp hf
  obtain ⟨-, -, ii, -⟩ := feed_window s t0 ts xs k
    (fun j hj => hp j (by omega)) (fun j hj => hf j (Nat.le_of_lt hj))
  refine ⟨hproc, ?_⟩
  rw [pushed_eq]
  show (if (feed (reset s t0) ts xs k).input_idx + 1 ≥ 100 then true
    else (feed (reset s t0) ts xs k).input_valid) = true
  rw [ii, if_pos (by omega)]

/-- C13, evaluated where it fails. A tuner built on memory whose ring cells
hold 0 is reset and fed the samples 1, 2, ..., 100 at one-second intervals.
After 99 calls peak type is 0 and Ku is 1. The 100th call, made when 99 samples
have been inserted since the reset, is classified as a window maximum: it sets
peak type +1, records its clock reading 100000 as the ultimate-maximum
timestamp and changes Ku to 2000000/314159. -/
theorem hundredth_step_runs_peak_logic :
    (feed (reset (construct (blank 0) 0) 0) everySecond rising 99).peak_type = 0 ∧
    (feed (reset (construct (blank 0) 0) 0) everySecond rising 99).Ku = 1 ∧
    MaxStep (reset (construct (blank 0) 0) 0) everySecond rising 99 ∧
    (feed (reset (construct (blank 0) 0) 0) everySecond rising (99 + 1)).peak_type = 1 ∧
    (feed (reset (construct (blank 0) 0) 0) everySecond rising (99 + 1)).ts_ultimate =
      100000 ∧
    (feed (reset (construct (blank 0) 0) 0) everySecond rising (99 + 1)).Ku =
      2000000 / 314159 := by
  have hp : ∀ n, Paced (construct (blank 0) 0).sample_time 0 everySecond n :=
    fun n => everySecond_paced n
  obtain ⟨hmin, hmax, hKu⟩ := stale_cell_step 0 99 rfl
  obtain ⟨hproc, hv⟩ := hundredth_step_valid (construct (blank 0) 0) 0 everySecond rising 99
    rfl (hp 100)
  have hM := hmax.mpr (by norm_num)
  have hstep : MaxStep (reset (construct (blank 0) 0) 0) everySecond rising 99 :=
    ⟨hproc, hv, hM⟩
  obtain ⟨e1, e2⟩ := maxStep_effect _ everySecond rising 99 hstep
  refine ⟨(feed_fill_peaks (construct (blank 0) 0) 0 everySecond rising (hp 99) 99
      (le_refl 99)).1,
    (feed_fill (construct (blank 0) 0) 0 everySecond rising (hp 99) 99 (le_refl 99)).2.1,
    hstep, e1, e2, ?_⟩
  rw [hM, hmin] at hKu
  exact hKu

/-! ## The rate gate across timer wraparound -/

theorem u32sub_cast (a b : ℕ) : (u32sub a b : ℤ) = ((a : ℤ) - (b : ℤ)) % 4294967296 := by
  unfold u32sub
  exact Int.toNat_of_nonneg (Int.emod_nonneg _ (by norm_num))

/-- C14. Rate gate across timer wraparound: a tuner that has not terminated
(sample period a non-negative `int`) processes a sample exactly when the
unsigned difference (now − ts_last) mod 2^32 is at least the sample period,
whether or not `now` is numerically below `ts_last`; a processed call stores
`now` in `ts_last`, any other call is a no-op returning `false`. With sample
period 1000 and ts_last = 2^32 − 500, now = 600 gives elapsed time 1100 and the
step is processed, now = 400 gives 900 and a no-op. -/
theorem rate_gate_wraparound (s : PID_Tuner) (now : ℕ) (hfin : s.finished = false)
    (hst : IntRange s.sample_time) (h0 : 0 ≤ s.sample_time) :
    (u32sub now s.ts_last : ℤ) = ((now : ℤ) - (s.ts_last : ℤ)) % 4294967296 ∧
    (Processed s now ↔ s.sample_time ≤ ((now : ℤ) - (s.ts_last : ℤ)) % 4294967296) ∧
    (s.sample_time ≤ ((now : ℤ) - (s.ts_last : ℤ)) % 4294967296 →
      run s now = sample s now ∧ (run s now).2.ts_last = now) ∧
    (((now : ℤ) - (s.ts_last : ℤ)) % 4294967296 < s.sample_time → run s now = (false, s)) ∧
    (s.sample_time = 1000 → s.ts_last = 4294967296 - 500 →
      u32sub 600 s.ts_last = 1100 ∧ run s 600 = sample s 600 ∧
      u32sub 400 s.ts_last = 900 ∧ run s 400 = (false, s)) := by
  have hu : ∀ n : ℕ, (toU32 s.sample_time ≤ u32sub n s.ts_last ↔
      s.sample_time ≤ ((n : ℤ) - (s.ts_last : ℤ)) % 4294967296) := by
    intro n
    have h1 := toU32_of_nonneg s.sample_time h0 (lt_trans hst.2 (by norm_num))
    have h2 := u32sub_cast n s.ts_last
    omega
  have hproc : ∀ n : ℕ, s.sample_time ≤ ((n : ℤ) - (s.ts_last : ℤ)) % 4294967296 →
      run s n = sample s n := fun n h => run_of_processed s n ⟨hfin, (hu n).mpr h⟩
  have hgate : ∀ n : ℕ, ((n : ℤ) - (s.ts_last : ℤ)) % 4294967296 < s.sample_time →
      run s n = (false, s) := by
    intro n h
    have : u32sub n s.ts_last < toU32 s.sample_time := by
      have := hu n
      omega
    simp [run, hfin, this]
  refine ⟨u32sub_cast now s.ts_last, ⟨fun h => (hu now).mp h.2, fun h => ⟨hfin, (hu now).mpr h⟩⟩,
    fun h => ⟨hproc now h, ?_⟩, hgate now, fun hs ht => ?_⟩
  · rw [hproc now h]
    exact (sample_pushed_fields s now).1
  · have e1 : u32sub 600 s.ts_last = 1100 := by rw [ht]; decide
    have e2 : u32sub 400 s.ts_last = 900 := by rw [ht]; decide
    refine ⟨e1, hproc 600 ?_, e2, hgate 400 ?_⟩
    · rw [← u32sub_cast, e1, hs]; norm_num
    · rw [← u32sub_cast, e2, hs]; norm_num

theorem rate_gate_wraparound_witness :
    run { blank 0 with sample_time := 1000, ts_last := 4294967296 - 500 } 600 =
      sample { blank 0 with sample_time := 1000, ts_last := 4294967296 - 500 } 600 ∧
    (run { blank 0 with sample_time := 1000, ts_last := 4294967296 - 500 } 600).2.ts_last =
      600 ∧
    run { blank 0 with sample_time := 1000, ts_last := 4294967296 - 500 } 400 =
      (false, { blank 0 with sample_time := 1000, ts_last := 4294967296 - 500 }) :=
  have h := rate_gate_wraparound { blank 0 with sample_time := 1000, ts_last := 4294967296 - 500 }
    600 rfl (by constructor <;> decide) (by decide)
  ⟨(h.2.2.1 (by decide)).1, (h.2.2.1 (by decide)).2, (h.2.2.2.2 rfl rfl).2.2.2⟩

/-! ## Running extrema -/

theorem run_of_not_processed (s : PID_Tuner) (now : ℕ) (h : ¬ Processed s now) :
    (run s now).2 = s := by
  unfold run
  split_ifs with h1 h2
  · rfl
  · rfl
  · exact absurd ⟨by simpa using h1, not_lt.mp h2⟩ h

theorem foldr_max_bounds (seed : ℚ) :
    ∀ l : List ℚ, seed ≤ l.foldr max seed ∧ ∀ x ∈ l, x ≤ l.foldr max seed
  | [] => ⟨le_refl _, fun x hx => absurd hx (List.not_mem_nil x)⟩
  | a :: l => by
    obtain ⟨h1, h2⟩ := foldr_max_bounds seed l
    refine ⟨le_trans h1 (le_max_right _ _), fun x hx => ?_⟩
    rcases List.mem_cons.mp hx with h | h
    · rw [h]; exact le_max_left _ _
    · exact le_trans (h2 x h) (le_max_right _ _)

theorem foldr_min_bounds (seed : ℚ) :
    ∀ l : List ℚ, l.foldr min seed ≤ seed ∧ ∀ x ∈ l, l.foldr min seed ≤ x
  | [] => ⟨le_refl _, fun x hx => absurd hx (List.not_mem_nil x)⟩
  | a :: l => by
    obtain ⟨h1, h2⟩ := foldr_min_bounds seed l
    refine ⟨le_trans (min_le_right _ _) h1, fun x hx => ?_⟩
    rcases List.mem_cons.mp hx with h | h
    · rw [h]; exact min_le_left _ _
    · exact le_trans (min_le_right _ _) (h2 x h)

/-- The running extrema after `k` calls are the extrema of the seed and the
samples read by processed calls. -/
theorem feed_extrema (s : PID_Tuner) (t0 : ℕ) (ts : ℕ → ℕ) (xs : ℕ → ℚ) :
    ∀ k,
      (feed (reset s t0) ts xs k).input_max = (seen (reset s t0) ts xs k).foldr max s.input ∧
      (feed (reset s t0) ts xs k).input_min = (seen (reset s t0) ts xs k).foldr min s.input
  | 0 => ⟨rfl, rfl⟩
  | k + 1 => by
    obtain ⟨h1, h2⟩ := feed_extrema s t0 ts xs k
    by_cases hp : Processed (before (reset s t0) ts xs k) (ts k)
    · obtain ⟨-, p2, p3, -⟩ := sample_pushed_fields (before (reset s t0) ts xs k) (ts k)
      have hM : (before (reset s t0) ts xs k).input_max =
          (feed (reset s t0) ts xs k).input_max := rfl
      have hm : (before (reset s t0) ts xs k).input_min =
          (feed (reset s t0) ts xs k).input_min := rfl
      have hx : (before (reset s t0) ts xs k).input = xs k := rfl
      rw [feed_succ, run_of_processed _ _ hp, p2, p3, hM, hm, hx, h1, h2, seen, if_pos hp]
      simp only [List.foldr_cons]
      constructor
      · split_ifs with h
        · exact (max_eq_left (le_of_lt h)).symm
        · exact (max_eq_right (not_lt.mp h)).symm
      · split_ifs with h
        · exact (min_eq_left (le_of_lt h)).symm
        · exact (min_eq_right (not_lt.mp h)).symm
    · rw [feed_succ, run_of_not_processed _ _ hp, seen, if_neg hp]
      exact ⟨h1, h2⟩

theorem sample_extrema_order (s : PID_Tuner) (now : ℕ) (h : s.input_min ≤ s.input_max) :
    (sample s now).2.input_min ≤ (sample s now).2.input_max := by
  obtain ⟨-, p2, p3, -⟩ := sample_pushed_fields s now
  rw [p2, p3]
  split_ifs <;> linarith

theorem reachable_extrema_order (s : PID_Tuner) (h : Reachable s) :
    s.input_min ≤ s.input_max := by
  induction h with
  | construct mem now => exact le_refl _
  | reset s now _ _ => exact le_refl _
  | run s now _ ih =>
    by_cases hp : Processed s now
    · rw [run_of_processed _ _ hp]
      exact sample_extrema_order s now ih
    · rw [run_of_not_processed _ _ hp]
      exact ih
  | setInput s x _ ih => exact ih
  | setOutput s v _ ih => exact ih

/-- C15. Running extrema: after `reset` followed by any sequence of calls of
`run`, running_max is the maximum and running_min the minimum of the seed
sampled at `reset` and the process values read on processed steps (rate-gated
and post-termination calls contribute nothing); so the seed and every
processed sample lie between them, and running_min ≤ running_max in every
reachable state. -/
theorem running_extrema (s : PID_Tuner) (t0 : ℕ) (ts : ℕ → ℕ) (xs : ℕ → ℚ) (k : ℕ)
    (r : PID_Tuner) :
    (feed (reset s t0) ts xs k).input_max = (seen (reset s t0) ts xs k).foldr max s.input ∧
    (feed (reset s t0) ts xs k).input_min = (seen (reset s t0) ts xs k).foldr min s.input ∧
    ((feed (reset s t0) ts xs k).input_min ≤ s.input ∧
      s.input ≤ (feed (reset s t0) ts xs k).input_max) ∧
    (∀ x ∈ seen (reset s t0) ts xs k,
      (feed (reset s t0) ts xs k).input_min ≤ x ∧ x ≤ (feed (reset s t0) ts xs k).input_max) ∧
    (Reachable r → r.input_min ≤ r.input_max) := by
  obtain ⟨h1, h2⟩ := feed_extrema s t0 ts xs k
  obtain ⟨a1, a2⟩ := foldr_max_bounds s.input (seen (reset s t0) ts xs k)
  obtain ⟨b1, b2⟩ := foldr_min_bounds s.input (seen (reset s t0) ts xs k)
  rw [h1, h2]
  exact ⟨rfl, rfl, ⟨b1, a1⟩, fun x hx => ⟨b2 x hx, a2 x hx⟩, reachable_extrema_order r⟩

theorem running_extrema_witness :
    Reachable (construct (blank 0) 0) ∧
    (construct (blank 0) 0).input_min ≤ (construct (blank 0) 0).input_max ∧
    (feed (reset (construct (blank 0) 0) 0) everySecond rising 1).input_max =
      (seen (reset (construct (blank 0) 0) 0) everySecond rising 1).foldr max 0 :=
  have h := running_extrema (construct (blank 0) 0) 0 everySecond rising 1
    (construct (blank 0) 0)
  ⟨Reachable.construct (blank 0) 0, h.2.2.2.2 (Reachable.construct (blank 0) 0), h.1⟩

/-! ## The peak-type transition -/

theorem isMax_false_of_isMin (s : PID_Tuner) (h : isMin s = true) : isMax s = false := by
  rw [Bool.eq_false_iff, Ne, isMax_iff]
  intro hM
  have h1 := (isMin_iff s).mp h 0 (by norm_num)
  have h2 := hM 0 (by norm_num)
  exact lt_asymm h1 h2

/-- The peak bookkeeping of the object after a processed step with a valid
window is that of line 100. -/
theorem run_peak_fields (s : PID_Tuner) (now : ℕ) (hproc : Processed s now)
    (hv : (run s now).2.input_valid = true) :
    (run s now).2.peak_type = (transitioned s now).peak_type ∧
    (run s now).2.peak_count = (transitioned s now).peak_count ∧
    (run s now).2.peaks = (transitioned s now).peaks ∧
    (run s now).2.ts_ultimate = (transitioned s now).ts_ultimate ∧
    (run s now).2.ts_penultimate = (transitioned s now).ts_penultimate := by
  have hpv : (pushed s now).input_valid = true := by rw [← run_valid_iff s now hproc]; exact hv
  obtain ⟨f1, f2, -, -, f5, -⟩ := sample_valid_fields s now hpv
  obtain ⟨t1, t2⟩ := sample_valid_times s now hpv
  rw [run_of_processed _ _ hproc]
  exact ⟨f5, f1, f2, t1, t2⟩

/-- C16. Peak-type transition on a processed step with a valid window, sample
x at time now. On a window maximum: the penultimate-max time becomes the old
ultimate-max time if the previous peak type was −1 and is unchanged otherwise,
peak type = +1, ultimate-max time = now, peaks[count] = x, no other peak cell
changes, and the count is unchanged. On a window minimum: the count increases
by exactly 1 if the previous peak type was +1 and is unchanged otherwise, peak
type = −1, both timestamps are unchanged, and x is stored in peaks at the new
count when that count is below 10, the peak record being unchanged otherwise.
On neither: peak type, count, peaks and timestamps are unchanged. -/
theorem peak_type_transition (s : PID_Tuner) (now : ℕ) (hproc : Processed s now)
    (hv : (run s now).2.input_valid = true) :
    (isMax s = true →
      (s.peak_type = -1 → (run s now).2.ts_penultimate = s.ts_ultimate) ∧
      (s.peak_type ≠ -1 → (run s now).2.ts_penultimate = s.ts_penultimate) ∧
      (run s now).2.peak_type = 1 ∧
      (run s now).2.ts_ultimate = now ∧
      (run s now).2.peaks s.peak_count = s.input ∧
      (∀ i, i ≠ s.peak_count → (run s now).2.peaks i = s.peaks i) ∧
      (run s now).2.peak_count = s.peak_count) ∧
    (isMin s = true →
      (s.peak_type = 1 → (run s now).2.peak_count = s.peak_count + 1) ∧
      (s.peak_type ≠ 1 → (run s now).2.peak_count = s.peak_count) ∧
      (run s now).2.peak_type = -1 ∧
      (run s now).2.ts_ultimate = s.ts_ultimate ∧
      (run s now).2.ts_penultimate = s.ts_penultimate ∧
      ((run s now).2.peak_count < 10 →
        (run s now).2.peaks (run s now).2.peak_count = s.input ∧
        ∀ i, i ≠ (run s now).2.peak_count → (run s now).2.peaks i = s.peaks i) ∧
      (10 ≤ (run s now).2.peak_count → (run s now).2.peaks = s.peaks)) ∧
    (isMax s = false → isMin s = false →
      (run s now).2.peak_type = s.peak_type ∧
      (run s now).2.peak_count = s.peak_count ∧
      (run s now).2.peaks = s.peaks ∧
      (run s now).2.ts_ultimate = s.ts_ultimate ∧
      (run s now).2.ts_penultimate = s.ts_penultimate) := by
  obtain ⟨r1, r2, r3, r4, r5⟩ := run_peak_fields s now hproc hv
  rw [r1, r2, r3, r4, r5]
  refine ⟨fun hM => ?_, fun hm => ?_, fun hM hm => ?_⟩
  · rw [transitioned_of_max s now hM, pushed_eq]
    dsimp only
    refine ⟨fun h => by rw [if_pos h], fun h => by rw [if_neg h], rfl, rfl, ?_, fun i hi => ?_,
      rfl⟩
    · unfold store
      rw [if_pos rfl]
    · unfold store
      rw [if_neg hi]
  · rw [transitioned_of_min s now (isMax_false_of_isMin s hm) hm, pushed_eq]
    dsimp only
    refine ⟨fun h => by rw [if_pos h], fun h => by rw [if_neg h], rfl, rfl, rfl, fun hlt => ?_,
      fun hge => ?_⟩
    · rw [if_pos hlt]
      unfold store
      exact ⟨by rw [if_pos rfl], fun i hi => by rw [if_neg hi]⟩
    · rw [if_neg (not_lt.mpr hge)]
  · rw [transitioned_of_none s now hM hm, pushed_eq]
    exact ⟨rfl, rfl, rfl, rfl, rfl⟩

theorem peak_type_transition_witness :
    Processed (midRun 2) 1000 ∧ (run (midRun 2) 1000).2.input_valid = true ∧
    isMin (midRun 2) = true ∧
    (run (midRun 2) 1000).2.peak_count = 2 + 1 ∧ (run (midRun 2) 1000).2.peak_type = -1 :=
  have h := (peak_type_transition (midRun 2) 1000 (midRun_processed 2) (midRun_run_valid 2)).2.1
    (midRun_isMin 2)
  ⟨midRun_processed 2, midRun_run_valid 2, midRun_isMin 2, h.1 rfl, h.2.2.1⟩

/-! ## The ultimate period -/

theorem sample_Pu_of_small_count (s : PID_Tuner) (now : ℕ)
    (h : (sample s now).2.peak_count ≤ 2) :
    (sample s now).2.Pu = s.Pu ∧ s.peak_count ≤ (sample s now).2.peak_count := by
  by_cases hv : (pushed s now).input_valid = true
  · have hc := (sample_valid_fields s now hv).1
    rw [hc] at h ⊢
    rw [sample_Pu s now hv, if_neg (by omega)]
    refine ⟨rfl, ?_⟩
    rcases transitioned_count s now with h' | h' <;> omega
  · have hv' : (pushed s now).input_valid = false := by simpa using hv
    rw [sample_invalid s now hv', pushed_eq]
    exact ⟨rfl, le_refl _⟩

/-- Until a third cycle is complete the ultimate period has its reset value. -/
theorem reachable_Pu (s : PID_Tuner) (h : Reachable s) : s.peak_count ≤ 2 → s.Pu = 1 := by
  induction h with
  | construct mem now => intro _; simp only [construct, reset]; norm_num
  | reset s now _ _ => intro _; simp only [reset]; norm_num
  | run s now _ ih =>
    by_cases hp : Processed s now
    · rw [run_of_processed _ _ hp]
      intro hc
      obtain ⟨h1, h2⟩ := sample_Pu_of_small_count s now hc
      rw [h1]
      exact ih (by omega)
    · rw [run_of_not_processed _ _ hp]
      exact ih
  | setInput s x _ ih => exact ih
  | setOutput s v _ ih => exact ih

/-- C17. Ultimate period: after every processed step with a valid window on
which the sample is a window maximum or minimum and the completed-cycle count
exceeds 2, Pu = ((ultimate-max time − penultimate-max time) mod 2^32) / 1000,
the millisecond difference of the two most recent maximum timestamps in
seconds; a processed step that leaves the count at most 2 does not change Pu,
and in every reachable state with count at most 2, Pu has its reset value 1. -/
theorem ultimate_period (s : PID_Tuner) (now : ℕ) (hproc : Processed s now) (q : PID_Tuner) :
    ((run s now).2.input_valid = true → (isMax s = true ∨ isMin s = true) →
      2 < (run s now).2.peak_count →
      (run s now).2.Pu =
        ((u32sub (run s now).2.ts_ultimate (run s now).2.ts_penultimate : ℕ) : ℚ) / 1000 ∧
      ((u32sub (run s now).2.ts_ultimate (run s now).2.ts_penultimate : ℕ) : ℤ) =
        (((run s now).2.ts_ultimate : ℤ) - ((run s now).2.ts_penultimate : ℤ)) % 4294967296) ∧
    ((run s now).2.peak_count ≤ 2 → (run s now).2.Pu = s.Pu) ∧
    (Reachable q → q.peak_count ≤ 2 → q.Pu = 1) := by
  refine ⟨fun hv hev hc => ⟨?_, u32sub_cast _ _⟩, fun hc => ?_, reachable_Pu q⟩
  · obtain ⟨-, r2, -, r4, r5⟩ := run_peak_fields s now hproc hv
    have hpv : (pushed s now).input_valid = true := by
      rw [← run_valid_iff s now hproc]; exact hv
    rw [r2] at hc
    rw [r4, r5, run_of_processed _ _ hproc, sample_Pu s now hpv,
      if_pos ⟨by rcases hev with h | h <;> simp [h], hc⟩]
  · rw [run_of_processed _ _ hproc] at hc ⊢
    exact (sample_Pu_of_small_count s now hc).1

theorem ultimate_period_witness :
    Processed (midRun 2) 1000 ∧ 2 < (run (midRun 2) 1000).2.peak_count ∧
    (run (midRun 2) 1000).2.Pu =
      ((u32sub (run (midRun 2) 1000).2.ts_ultimate
        (run (midRun 2) 1000).2.ts_penultimate : ℕ) : ℚ) / 1000 ∧
    (Reachable (construct (blank 0) 0) → (construct (blank 0) 0).peak_count ≤ 2 →
      (construct (blank 0) 0).Pu = 1) :=
  have h := ultimate_period (midRun 2) 1000 (midRun_processed 2) (construct (blank 0) 0)
  have hc : 2 < (run (midRun 2) 1000).2.peak_count := by rw [midRun_run_count]; decide
  ⟨midRun_processed 2, hc, (h.1 (midRun_run_valid 2) (Or.inr (midRun_isMin 2)) hc).1, h.2.2⟩

/-! ## Index safety -/

theorem peakAccesses_bound (s : PID_Tuner) (now : ℕ) (h0 : 0 ≤ s.peak_count)
    (h1 : s.finished = false → s.peak_count < 10) :
    ∀ i ∈ peakAccesses s now, 0 ≤ i ∧ i < 10 := by
  intro i hi
  unfold peakAccesses at hi
  split_ifs at hi with hp hv
  · have hlt := h1 hp.1
    have hpc : (pushed s now).peak_count = s.peak_count := (pushed_frame s now).2.1
    have hpt : (pushed s now).peak_type = s.peak_type := (pushed_frame s now).2.2
    have hcnt := transitioned_count s now
    rcases List.mem_append.mp hi with h | h
    · unfold peakTransitionIdx at h
      rw [hpc, hpt] at h
      dsimp only at h
      split_ifs at h <;> simp at h <;> omega
    · unfold recomputeIdx at h
      split_ifs at h <;> simp at h
      omega
  · simp at hi
  · simp at hi

theorem ringAccesses_bound (s : PID_Tuner) (now : ℕ) (h0 : 0 ≤ s.input_idx)
    (h1 : s.input_idx < 100) : ∀ i ∈ ringAccesses s now, 0 ≤ i ∧ i < 100 := by
  intro i hi
  unfold ringAccesses at hi
  split_ifs at hi
  · rcases List.mem_append.mp hi with h | h
    · obtain ⟨j, hj, rfl⟩ := List.mem_map.mp h
      have := List.mem_range.mp hj
      omega
    · simp at h
      omega
  · simp at hi

/-- C18. Index safety: in every state reachable from the constructor by calls
of `reset` and `run`, 0 ≤ input_idx < 100 and 0 ≤ peak_count ≤ 10, and
peak_count = 10 only together with the termination flag; so every array access
a call of `run` performs is in bounds: the reads `input_ring[i]` of the loop
and the write `input_ring[input_idx]` within 0..99, the unguarded write
`peaks[peak_count]` on a window maximum, the guarded one on a window minimum,
and the reads `peaks[peak_count−1]`, `peaks[peak_count−2]`,
`peaks[peak_count−3]` of the convergence test within 0..9. -/
theorem index_safety (s : PID_Tuner) (h : Reachable s) (now : ℕ) :
    (0 ≤ s.input_idx ∧ s.input_idx < 100) ∧
    (0 ≤ s.peak_count ∧ s.peak_count ≤ 10) ∧
    (s.peak_count = 10 → s.finished = true) ∧
    (∀ i ∈ ringAccesses s now, 0 ≤ i ∧ i < 100) ∧
    (∀ i ∈ peakAccesses s now, 0 ≤ i ∧ i < 10) := by
  obtain ⟨-, i0, i1, c0, c1, c2⟩ := reachable_inv s h
  refine ⟨⟨i0, i1⟩, ⟨c0, c1⟩, fun h10 => ?_, ringAccesses_bound s now i0 i1,
    peakAccesses_bound s now c0 c2⟩
  by_contra hf
  have := c2 (by simpa using hf)
  omega

theorem index_safety_witness :
    Reachable (run (construct (blank 0) 0) 1000).2 ∧
    (∀ i ∈ peakAccesses (run (construct (blank 0) 0) 1000).2 2000, 0 ≤ i ∧ i < 10) :=
  ⟨Reachable.run _ _ (Reachable.construct (blank 0) 0),
   (index_safety _ (Reachable.run _ _ (Reachable.construct (blank 0) 0)) 2000).2.2.2.2⟩

/-! ## Provenance of the peak record -/

/-- What a call of `run` does to the peak bookkeeping: nothing, the maximum
branch, or the minimum branch. -/
theorem run_peak_cases (s : PID_Tuner) (now : ℕ) :
    ((run s now).2.peak_type = s.peak_type ∧ (run s now).2.peak_count = s.peak_count ∧
      (run s now).2.peaks = s.peaks ∧ (run s now).2.ts_ultimate = s.ts_ultimate ∧
      (run s now).2.ts_penultimate = s.ts_penultimate) ∨
    ((Processed s now ∧ (pushed s now).input_valid = true ∧ isMax s = true) ∧
      (run s now).2.peak_type = 1 ∧ (run s now).2.peak_count = s.peak_count ∧
      (run s now).2.peaks = store s.peaks s.peak_count s.input ∧
      (run s now).2.ts_ultimate = now ∧
      (run s now).2.ts_penultimate =
        (if s.peak_type = -1 then s.ts_ultimate else s.ts_penultimate)) ∨
    ((run s now).2.peak_type = -1 ∧
      (run s now).2.peak_count = (if s.peak_type = 1 then s.peak_count + 1 else s.peak_count) ∧
      (run s now).2.peaks =
        (if (if s.peak_type = 1 then s.peak_count + 1 else s.peak_count) < 10 then
          store s.peaks (if s.peak_type = 1 then s.peak_count + 1 else s.peak_count) s.input
        else s.peaks) ∧
      (run s now).2.ts_ultimate = s.ts_ultimate ∧
      (run s now).2.ts_penultimate = s.ts_penultimate) := by
  by_cases hp : Processed s now
  · by_cases hv : (pushed s now).input_valid = true
    · have hrv : (run s now).2.input_valid = true := by rw [run_valid_iff s now hp]; exact hv
      obtain ⟨r1, r2, r3, r4, r5⟩ := run_peak_fields s now hp hrv
      rw [r1, r2, r3, r4, r5]
      by_cases hM : isMax s = true
      · right; left
        refine ⟨⟨hp, hv, hM⟩, ?_⟩
        rw [transitioned_of_max s now hM, pushed_eq]
        exact ⟨rfl, rfl, rfl, rfl, rfl⟩
      · have hM' : isMax s = false := by simpa using hM
        by_cases hm : isMin s = true
        · right; right
          rw [transitioned_of_min s now hM' hm, pushed_eq]
          exact ⟨rfl, rfl, rfl, rfl, rfl⟩
        · have hm' : isMin s = false := by simpa using hm
          left
          rw [transitioned_of_none s now hM' hm', pushed_eq]
          exact ⟨rfl, rfl, rfl, rfl, rfl⟩
    · have hv' : (pushed s now).input_valid = false := by simpa using hv
      left
      rw [run_of_processed _ _ hp, sample_invalid s now hv', pushed_eq]
      exact ⟨rfl, rfl, rfl, rfl, rfl⟩
  · left
    rw [run_of_not_processed _ _ hp]
    exact ⟨rfl, rfl, rfl, rfl, rfl⟩

/-- A call of `run` keeps the provenance of the peak record, when the values
and clock readings recorded so far are extended by those of this call if it
takes the maximum branch. -/
theorem prov_run (V V' : ℚ → Prop) (T T' : ℕ → Prop) (s : PID_Tuner) (now : ℕ)
    (h : Prov V T s) (hV : ∀ x, V x → V' x) (hT : ∀ t, T t → T' t)
    (hmax : Processed s now ∧ (pushed s now).input_valid = true ∧ isMax s = true →
      V' s.input ∧ T' now) :
    Prov V' T' (run s now).2 := by
  obtain ⟨p0, p1, p2, p3, p4, p5⟩ := h
  rcases run_peak_cases s now with ⟨e1, e2, e3, e4, e5⟩ | ⟨hM, e1, e2, e3, e4, e5⟩ |
    ⟨e1, e2, e3, e4, e5⟩
  · unfold Prov
    rw [e1, e2, e3, e4, e5]
    exact ⟨p0, p1, fun i h0 h1 => hV _ (p2 i h0 h1), fun h => hV _ (p3 h),
      fun h => hT _ (p4 h), fun h => hT _ (p5 h)⟩
  · obtain ⟨hv', ht'⟩ := hmax hM
    unfold Prov
    rw [e1, e2, e3, e4, e5]
    refine ⟨p0, fun _ => Or.inl rfl, fun i h0 h1 => ?_, fun _ => ?_, fun _ => ht', fun h => ?_⟩
    · unfold store
      rw [if_neg (by omega)]
      exact hV _ (p2 i h0 h1)
    · unfold store
      rw [if_pos rfl]
      exact hv'
    · have hc : 1 ≤ s.peak_count := by rcases h with h | ⟨h, -⟩ <;> omega
      rcases p1 hc with ht | ht
      · rw [if_neg (by rw [ht]; norm_num)]
        exact hT _ (p5 (Or.inr ⟨hc, ht⟩))
      · rw [if_pos ht]
        exact hT _ (p4 (Or.inr hc))
  · unfold Prov
    rw [e1, e2, e3, e4, e5]
    by_cases ht : s.peak_type = 1
    · simp only [if_pos ht]
      refine ⟨by omega, fun _ => Or.inr trivial, fun i h0 h1 => ?_,
        fun h => ?_, fun _ => hT _ (p4 (Or.inl ht)), fun h => ?_⟩
      · have hcell : (if s.peak_count + 1 < 10 then store s.peaks (s.peak_count + 1) s.input
            else s.peaks) i = s.peaks i := by
          split_ifs
          · unfold store
            rw [if_neg (by omega)]
          · rfl
        rw [hcell]
        by_cases hi : i < s.peak_count
        · exact hV _ (p2 i h0 hi)
        · have : i = s.peak_count := by omega
          rw [this]
          exact hV _ (p3 ht)
      · exact absurd h (by norm_num)
      · rcases h with h | ⟨-, h⟩
        · exact hT _ (p5 (Or.inr ⟨by omega, ht⟩))
        · exact absurd h (by norm_num)
    · simp only [if_neg ht]
      refine ⟨p0, fun _ => Or.inr trivial, fun i h0 h1 => ?_,
        fun h => ?_, fun h => ?_, fun h => ?_⟩
      · have hcell : (if s.peak_count < 10 then store s.peaks s.peak_count s.input
            else s.peaks) i = s.peaks i := by
          split_ifs
          · unfold store
            rw [if_neg (by omega)]
          · rfl
        rw [hcell]
        exact hV _ (p2 i h0 h1)
      · exact absurd h (by norm_num)
      · rcases h with h | h
        · exact absurd h (by norm_num)
        · exact hT _ (p4 (Or.inr h))
      · rcases h with h | ⟨-, h⟩
        · exact hT _ (p5 (Or.inl h))
        · exact absurd h (by norm_num)

theorem prov_reset (V : ℚ → Prop) (T : ℕ → Prop) (s : PID_Tuner) (t0 : ℕ) :
    Prov V T (reset s t0) := by
  refine ⟨le_refl _, fun h => ?_, fun i h0 h1 => ?_, fun h => ?_, fun h => ?_, fun h => ?_⟩
  · exact absurd h (by show ¬ (1 : ℤ) ≤ 0; norm_num)
  · exact absurd h1 (by show ¬ i < 0; omega)
  · exact absurd h (by show ¬ (0 : ℤ) = 1; norm_num)
  · rcases h with h | h
    · exact absurd h (by show ¬ (0 : ℤ) = 1; norm_num)
    · exact absurd h (by show ¬ (1 : ℤ) ≤ 0; norm_num)
  · rcases h with h | ⟨h, -⟩
    · exact absurd h (by show ¬ (2 : ℤ) ≤ 0; norm_num)
    · exact absurd h (by show ¬ (1 : ℤ) ≤ 0; norm_num)

/-- After `k` calls fed from `reset`, the peak record holds samples of
window-maximum steps among those calls, and the maximum timestamps their clock
readings. -/
theorem feed_prov (s : PID_Tuner) (t0 : ℕ) (ts : ℕ → ℕ) (xs : ℕ → ℚ) :
    ∀ k, Prov (fun x => ∃ j, j < k ∧ MaxStep (reset s t0) ts xs j ∧ x = xs j)
      (fun t => ∃ j, j < k ∧ MaxStep (reset s t0) ts xs j ∧ t = ts j)
      (feed (reset s t0) ts xs k)
  | 0 => prov_reset _ _ s t0
  | k + 1 => by
    have ih : Prov (fun x => ∃ j, j < k ∧ MaxStep (reset s t0) ts xs j ∧ x = xs j)
        (fun t => ∃ j, j < k ∧ MaxStep (reset s t0) ts xs j ∧ t = ts j)
        (before (reset s t0) ts xs k) := feed_prov s t0 ts xs k
    refine prov_run _ _ _ _ _ (ts k) ih ?_ ?_ ?_
    · rintro x ⟨j, hj, hm, hx⟩
      exact ⟨j, Nat.lt_succ_of_lt hj, hm, hx⟩
    · rintro t ⟨j, hj, hm, ht⟩
      exact ⟨j, Nat.lt_succ_of_lt hj, hm, ht⟩
    · intro hm
      exact ⟨⟨k, Nat.lt_succ_self k, hm, rfl⟩, ⟨k, Nat.lt_succ_self k, hm, rfl⟩⟩

/-! ## The peak record from before `reset` has no influence -/

theorem withPeaks_finished (s : PID_Tuner) (p : ℤ → ℚ) (u v : ℕ) :
    (withPeaks s p u v).finished = s.finished := rfl

theorem pushed_withPeaks (s : PID_Tuner) (now : ℕ) (p : ℤ → ℚ) (u v : ℕ) :
    pushed (withPeaks s p u v) now = withPeaks (pushed s now) p u v := by
  rw [pushed_eq, pushed_eq]
  rfl

theorem failsafe_withPeaks (s : PID_Tuner) (p : ℤ → ℚ) (u v : ℕ) :
    failsafe (withPeaks s p u v) = withPeaks (failsafe s) p u v := by
  unfold failsafe withPeaks
  dsimp only
  split_ifs <;> rfl

theorem transitioned_withPeaks (s : PID_Tuner) (now : ℕ) (p : ℤ → ℚ) (u v : ℕ)
    (h : Processed s now ∧ (pushed s now).input_valid = true) :
    transitioned (withPeaks s p u v) now =
      withPeaks (transitioned s now) (peakMemStep s now p u v).1
        (peakMemStep s now p u v).2.1 (peakMemStep s now p u v).2.2 := by
  have hM : isMax (withPeaks s p u v) = isMax s := rfl
  have hm : isMin (withPeaks s p u v) = isMin s := rfl
  unfold peakMemStep
  rw [if_pos h]
  by_cases h1 : isMax s = true
  · rw [if_pos h1, transitioned_of_max _ now (hM.trans h1), transitioned_of_max s now h1,
      pushed_withPeaks]
    rfl
  · have h1' : isMax s = false := by simpa using h1
    rw [if_neg h1]
    by_cases h2 : isMin s = true
    · rw [if_pos h2, transitioned_of_min _ now (hM.trans h1') (hm.trans h2),
        transitioned_of_min s now h1' h2, pushed_withPeaks]
      rfl
    · have h2' : isMin s = false := by simpa using h2
      rw [if_neg h2, transitioned_of_none _ now (hM.trans h1') (hm.trans h2'),
        transitioned_of_none s now h1' h2', pushed_withPeaks]

theorem recompute_withPeaks (t : PID_Tuner) (a b : Bool) (p : ℤ → ℚ) (u v : ℕ)
    (h : PeakAgree t p u v) :
    recompute (withPeaks t p u v) a b = withPeaks (recompute t a b) p u v := by
  obtain ⟨h0, -, h2, -, h4, h5⟩ := h
  by_cases hc : t.peak_count > 2
  · have e1 := h2 (t.peak_count - 1) (by omega) (by omega)
    have e2 := h2 (t.peak_count - 2) (by omega) (by omega)
    have e3 := h2 (t.peak_count - 3) (by omega) (by omega)
    have eu := h4 (Or.inr (by omega))
    have ev := h5 (Or.inl (by omega))
    unfold recompute separation threshold withPeaks
    dsimp only
    rw [e1, e2, e3, eu, ev]
    split_ifs <;> rfl
  · unfold recompute withPeaks
    dsimp only
    split_ifs <;> rfl

theorem sample_withPeaks (s : PID_Tuner) (now : ℕ) (p : ℤ → ℚ) (u v : ℕ)
    (hproc : Processed s now)
    (h : (pushed s now).input_valid = true →
      PeakAgree (transitioned s now) (peakMemStep s now p u v).1
        (peakMemStep s now p u v).2.1 (peakMemStep s now p u v).2.2) :
    (sample (withPeaks s p u v) now).1 = (sample s now).1 ∧
    (sample (withPeaks s p u v) now).2 =
      withPeaks (sample s now).2 (peakMemStep s now p u v).1 (peakMemStep s now p u v).2.1
        (peakMemStep s now p u v).2.2 := by
  have hM : isMax (withPeaks s p u v) = isMax s := rfl
  have hm : isMin (withPeaks s p u v) = isMin s := rfl
  by_cases hv : (pushed s now).input_valid = true
  · have hv' : (pushed (withPeaks s p u v) now).input_valid = true := by
      rw [pushed_withPeaks]; exact hv
    have e1 := sample_eq (withPeaks s p u v) now
    rw [if_pos hv'] at e1
    have e2 := sample_eq s now
    rw [if_pos hv] at e2
    have e3 : failsafe (recompute (transitioned (withPeaks s p u v) now) (isMax s) (isMin s)) =
        withPeaks (failsafe (recompute (transitioned s now) (isMax s) (isMin s)))
          (peakMemStep s now p u v).1 (peakMemStep s now p u v).2.1
          (peakMemStep s now p u v).2.2 := by
      rw [transitioned_withPeaks s now p u v ⟨hproc, hv⟩,
        recompute_withPeaks (transitioned s now) (isMax s) (isMin s) _ _ _ (h hv),
        failsafe_withPeaks]
    rw [hM, hm, e3] at e1
    rw [e1, e2]
    dsimp only
    exact ⟨withPeaks_finished _ _ _ _, Eq.refl _⟩
  · have hv' : ¬ (pushed (withPeaks s p u v) now).input_valid = true := by
      rw [pushed_withPeaks]; exact hv
    have hstep : peakMemStep s now p u v = (p, u, v) := by
      unfold peakMemStep
      rw [if_neg (fun hh => hv hh.2)]
    rw [sample_eq, if_neg hv', sample_eq s now, if_neg hv, pushed_withPeaks, hstep]
    exact ⟨rfl, rfl⟩

/-- What a call of `run` does to the peak bookkeeping and, in the same case,
to another peak record and timestamps `p`, `u`, `v`. -/
theorem run_peak_cases_with (s : PID_Tuner) (now : ℕ) (p : ℤ → ℚ) (u v : ℕ) :
    (((run s now).2.peak_type = s.peak_type ∧ (run s now).2.peak_count = s.peak_count ∧
      (run s now).2.peaks = s.peaks ∧ (run s now).2.ts_ultimate = s.ts_ultimate ∧
      (run s now).2.ts_penultimate = s.ts_penultimate) ∧
      peakMemStep s now p u v = (p, u, v)) ∨
    (((run s now).2.peak_type = 1 ∧ (run s now).2.peak_count = s.peak_count ∧
      (run s now).2.peaks = store s.peaks s.peak_count s.input ∧
      (run s now).2.ts_ultimate = now ∧
      (run s now).2.ts_penultimate =
        (if s.peak_type = -1 then s.ts_ultimate else s.ts_penultimate)) ∧
      peakMemStep s now p u v =
        (store p s.peak_count s.input, now, if s.peak_type = -1 then u else v)) ∨
    (((run s now).2.peak_type = -1 ∧
      (run s now).2.peak_count = (if s.peak_type = 1 then s.peak_count + 1 else s.peak_count) ∧
      (run s now).2.peaks =
        (if (if s.peak_type = 1 then s.peak_count + 1 else s.peak_count) < 10 then
          store s.peaks (if s.peak_type = 1 then s.peak_count + 1 else s.peak_count) s.input
        else s.peaks) ∧
      (run s now).2.ts_ultimate = s.ts_ultimate ∧
      (run s now).2.ts_penultimate = s.ts_penultimate) ∧
      peakMemStep s now p u v =
        (if (if s.peak_type = 1 then s.peak_count + 1 else s.peak_count) < 10 then
          store p (if s.peak_type = 1 then s.peak_count + 1 else s.peak_count) s.input
        else p, u, v)) := by
  by_cases hp : Processed s now
  · by_cases hv : (pushed s now).input_valid = true
    · have hrv : (run s now).2.input_valid = true := by rw [run_valid_iff s now hp]; exact hv
      obtain ⟨r1, r2, r3, r4, r5⟩ := run_peak_fields s now hp hrv
      rw [r1, r2, r3, r4, r5]
      by_cases hM : isMax s = true
      · right; left
        refine ⟨?_, by unfold peakMemStep; rw [if_pos ⟨hp, hv⟩, if_pos hM]⟩
        rw [transitioned_of_max s now hM, pushed_eq]
        exact ⟨rfl, rfl, rfl, rfl, rfl⟩
      · have hM' : isMax s = false := by simpa using hM
        by_cases hm : isMin s = true
        · right; right
          refine ⟨?_, by unfold peakMemStep; rw [if_pos ⟨hp, hv⟩, if_neg hM, if_pos hm]⟩
          rw [transitioned_of_min s now hM' hm, pushed_eq]
          exact ⟨rfl, rfl, rfl, rfl, rfl⟩
        · have hm' : isMin s = false := by simpa using hm
          left
          refine ⟨?_, by unfold peakMemStep; rw [if_pos ⟨hp, hv⟩, if_neg hM, if_neg hm]⟩
          rw [transitioned_of_none s now hM' hm', pushed_eq]
          exact ⟨rfl, rfl, rfl, rfl, rfl⟩
    · have hv' : (pushed s now).input_valid = false := by simpa using hv
      left
      refine ⟨?_, by unfold peakMemStep; rw [if_neg (fun hh => hv hh.2)]⟩
      rw [run_of_processed _ _ hp, sample_invalid s now hv', pushed_eq]
      exact ⟨rfl, rfl, rfl, rfl, rfl⟩
  · left
    refine ⟨?_, by unfold peakMemStep; rw [if_neg (fun hh => hp hh.1)]⟩
    rw [run_of_not_processed _ _ hp]
    exact ⟨rfl, rfl, rfl, rfl, rfl⟩

/-- A call of `run` keeps the agreement between the peak record of the object
and another record that goes through the same steps. -/
theorem agree_run (s : PID_Tuner) (now : ℕ) (p : ℤ → ℚ) (u v : ℕ) (h : PeakAgree s p u v) :
    PeakAgree (run s now).2 (peakMemStep s now p u v).1 (peakMemStep s now p u v).2.1
      (peakMemStep s now p u v).2.2 := by
  obtain ⟨p0, p1, p2, p3, p4, p5⟩ := h
  rcases run_peak_cases_with s now p u v with ⟨⟨e1, e2, e3, e4, e5⟩, em⟩ |
    ⟨⟨e1, e2, e3, e4, e5⟩, em⟩ | ⟨⟨e1, e2, e3, e4, e5⟩, em⟩
  · unfold PeakAgree
    rw [e1, e2, e3, e4, e5, em]
    exact ⟨p0, p1, p2, p3, p4, p5⟩
  · unfold PeakAgree
    rw [e1, e2, e3, e4, e5, em]
    dsimp only
    refine ⟨p0, fun _ => Or.inl rfl, fun i h0 h1 => ?_, fun _ => ?_, fun _ => rfl, fun h => ?_⟩
    · unfold store
      rw [if_neg (by omega), if_neg (by omega)]
      exact p2 i h0 h1
    · unfold store
      rw [if_pos rfl, if_pos rfl]
    · have hc : 1 ≤ s.peak_count := by rcases h with h | ⟨h, -⟩ <;> omega
      rcases p1 hc with ht | ht
      · rw [if_neg (by rw [ht]; norm_num), if_neg (by rw [ht]; norm_num)]
        exact p5 (Or.inr ⟨hc, ht⟩)
      · rw [if_pos ht, if_pos ht]
        exact p4 (Or.inr hc)
  · unfold PeakAgree
    rw [e1, e2, e3, e4, e5, em]
    dsimp only
    by_cases ht : s.peak_type = 1
    · simp only [if_pos ht]
      refine ⟨by omega, fun _ => Or.inr trivial, fun i h0 h1 => ?_, fun h => ?_,
        fun _ => p4 (Or.inl ht), fun h => ?_⟩
      · have hcell : ∀ q : ℤ → ℚ, (if s.peak_count + 1 < 10 then
            store q (s.peak_count + 1) s.input else q) i = q i := by
          intro q
          split_ifs
          · unfold store
            rw [if_neg (by omega)]
          · rfl
        rw [hcell, hcell]
        by_cases hi : i < s.peak_count
        · exact p2 i h0 hi
        · have : i = s.peak_count := by omega
          rw [this]
          exact p3 ht
      · exact absurd h (by norm_num)
      · rcases h with h | ⟨-, h⟩
        · exact p5 (Or.inr ⟨by omega, ht⟩)
        · exact absurd h (by norm_num)
    · simp only [if_neg ht]
      refine ⟨p0, fun _ => Or.inr trivial, fun i h0 h1 => ?_, fun h => ?_, fun h => ?_,
        fun h => ?_⟩
      · have hcell : ∀ q : ℤ → ℚ, (if s.peak_count < 10 then
            store q s.peak_count s.input else q) i = q i := by
          intro q
          split_ifs
          · unfold store
            rw [if_neg (by omega)]
          · rfl
        rw [hcell, hcell]
        exact p2 i h0 h1
      · exact absurd h (by norm_num)
      · rcases h with h | h
        · exact absurd h (by norm_num)
        · exact p4 (Or.inr h)
      · rcases h with h | ⟨-, h⟩
        · exact p5 (Or.inl h)
        · exact absurd h (by norm_num)

/-- A call of `run` on the object with another peak record that agrees with
its own where the current run has written it: same returned value, same
object after the call apart from the peak record and timestamps. -/
theorem run_withPeaks (s : PID_Tuner) (now : ℕ) (p : ℤ → ℚ) (u v : ℕ)
    (h : PeakAgree s p u v) :
    (run (withPeaks s p u v) now).1 = (run s now).1 ∧
    (run (withPeaks s p u v) now).2 =
      withPeaks (run s now).2 (peakMemStep s now p u v).1 (peakMemStep s now p u v).2.1
        (peakMemStep s now p u v).2.2 := by
  by_cases hp : Processed s now
  · have hp' : Processed (withPeaks s p u v) now := hp
    have hag := agree_run s now p u v h
    rw [run_of_processed _ _ hp', run_of_processed _ _ hp]
    refine sample_withPeaks s now p u v hp (fun hv => ?_)
    have hrv : (run s now).2.input_valid = true := by rw [run_valid_iff s now hp]; exact hv
    obtain ⟨r1, r2, r3, r4, r5⟩ := run_peak_fields s now hp hrv
    unfold PeakAgree at hag ⊢
    rw [r1, r2, r3, r4, r5] at hag
    exact hag
  · have hstep : peakMemStep s now p u v = (p, u, v) := by
      unfold peakMemStep
      rw [if_neg (fun hh => hp hh.1)]
    rw [hstep]
    unfold Processed at hp
    unfold run
    by_cases hf : s.finished = true
    · have hf' : (withPeaks s p u v).finished = true := hf
      rw [if_pos hf', if_pos hf]
      exact ⟨rfl, rfl⟩
    · have hf' : ¬ (withPeaks s p u v).finished = true := hf
      have hg : u32sub now s.ts_last < toU32 s.sample_time := by
        by_contra hc
        exact hp ⟨by simpa using hf, not_lt.mp hc⟩
      have hg' : u32sub now (withPeaks s p u v).ts_last <
          toU32 (withPeaks s p u v).sample_time := hg
      rw [if_neg hf', if_neg hf, if_pos hg', if_pos hg]
      exact ⟨rfl, rfl⟩

theorem agree_reset (s : PID_Tuner) (t0 : ℕ) (p : ℤ → ℚ) (u v : ℕ) :
    PeakAgree (reset s t0) p u v := by
  refine ⟨le_refl _, fun h => ?_, fun i h0 h1 => ?_, fun h => ?_, fun h => ?_, fun h => ?_⟩
  · exact absurd h (by show ¬ (1 : ℤ) ≤ 0; norm_num)
  · exact absurd h1 (by show ¬ i < 0; omega)
  · exact absurd h (by show ¬ (0 : ℤ) = 1; norm_num)
  · rcases h with h | h
    · exact absurd h (by show ¬ (0 : ℤ) = 1; norm_num)
    · exact absurd h (by show ¬ (1 : ℤ) ≤ 0; norm_num)
  · rcases h with h | ⟨h, -⟩
    · exact absurd h (by show ¬ (2 : ℤ) ≤ 0; norm_num)
    · exact absurd h (by show ¬ (1 : ℤ) ≤ 0; norm_num)

/-- Two runs fed alike after `reset`, from objects that differ only in the
peak record and the maximum timestamps: after every call the objects differ at
most there, and agree there on what the run has written. -/
theorem feed_withPeaks (s : PID_Tuner) (t0 : ℕ) (ts : ℕ → ℕ) (xs : ℕ → ℚ) (p : ℤ → ℚ)
    (u v : ℕ) :
    ∀ k, ∃ (p' : ℤ → ℚ) (u' v' : ℕ),
      feed (reset (withPeaks s p u v) t0) ts xs k =
        withPeaks (feed (reset s t0) ts xs k) p' u' v' ∧
      PeakAgree (feed (reset s t0) ts xs k) p' u' v'
  | 0 => ⟨p, u, v, rfl, agree_reset s t0 p u v⟩
  | k + 1 => by
    obtain ⟨p', u', v', e, ha⟩ := feed_withPeaks s t0 ts xs p u v k
    have ha' : PeakAgree (before (reset s t0) ts xs k) p' u' v' := ha
    have hb : before (reset (withPeaks s p u v) t0) ts xs k =
        withPeaks (before (reset s t0) ts xs k) p' u' v' := by
      unfold before
      rw [e]
      rfl
    refine ⟨(peakMemStep (before (reset s t0) ts xs k) (ts k) p' u' v').1,
      (peakMemStep (before (reset s t0) ts xs k) (ts k) p' u' v').2.1,
      (peakMemStep (before (reset s t0) ts xs k) (ts k) p' u' v').2.2, ?_, ?_⟩
    · rw [feed_succ, feed_succ, hb]
      exact (run_withPeaks _ (ts k) p' u' v' ha').2
    · rw [feed_succ]
      exact agree_run _ (ts k) p' u' v' ha'

theorem feedRet_withPeaks (s : PID_Tuner) (t0 : ℕ) (ts : ℕ → ℕ) (xs : ℕ → ℚ) (p : ℤ → ℚ)
    (u v : ℕ) (k : ℕ) :
    feedRet (reset (withPeaks s p u v) t0) ts xs k = feedRet (reset s t0) ts xs k := by
  obtain ⟨p', u', v', e, ha⟩ := feed_withPeaks s t0 ts xs p u v k
  have ha' : PeakAgree (before (reset s t0) ts xs k) p' u' v' := ha
  have hb : setInput (feed (reset (withPeaks s p u v) t0) ts xs k) (xs k) =
      withPeaks (before (reset s t0) ts xs k) p' u' v' := by
    rw [e]
    rfl
  unfold feedRet
  rw [hb]
  exact (run_withPeaks _ (ts k) p' u' v' ha').1

/-- C19. The convergence test reads only values recorded in the current run:
after any number of calls of `run` fed from `reset`, with any clock readings,
every peak slot below peak_count holds the process value of a call after that
reset that was classified as a window maximum, and when peak_count > 2 the
penultimate-max and ultimate-max timestamps are clock readings of such calls;
in particular the three peaks and two timestamps read by lines 105-111 on a
call that leaves the count above 2 are such values. While the last extremum is
a maximum, the slot at peak_count and the ultimate-max timestamp are those of
such a call as well. So the values of peaks[] and of the maximum timestamps
from before the reset have no influence: replacing them by any `p`, `u`, `v`
before the reset changes neither a returned value, nor the termination flag,
Ku, Pu or the actuation slot after any call, nor the separation once the
count exceeds 2. -/
theorem peaks_recorded_after_reset (s : PID_Tuner) (t0 : ℕ) (ts : ℕ → ℕ) (xs : ℕ → ℚ)
    (k : ℕ) (p : ℤ → ℚ) (u v : ℕ) :
    (∀ i, 0 ≤ i → i < (feed (reset s t0) ts xs k).peak_count →
      ∃ j, j < k ∧ MaxStep (reset s t0) ts xs j ∧
        (feed (reset s t0) ts xs k).peaks i = xs j) ∧
    (2 < (feed (reset s t0) ts xs k).peak_count →
      (∃ j, j < k ∧ MaxStep (reset s t0) ts xs j ∧
        (feed (reset s t0) ts xs k).ts_penultimate = ts j) ∧
      (∃ j, j < k ∧ MaxStep (reset s t0) ts xs j ∧
        (feed (reset s t0) ts xs k).ts_ultimate = ts j) ∧
      (∀ d : ℤ, 1 ≤ d → d ≤ 3 → ∃ j, j < k ∧ MaxStep (reset s t0) ts xs j ∧
        (feed (reset s t0) ts xs k).peaks ((feed (reset s t0) ts xs k).peak_count - d) =
          xs j)) ∧
    ((feed (reset s t0) ts xs k).peak_type = 1 →
      (∃ j, j < k ∧ MaxStep (reset s t0) ts xs j ∧
        (feed (reset s t0) ts xs k).peaks (feed (reset s t0) ts xs k).peak_count = xs j) ∧
      (∃ j, j < k ∧ MaxStep (reset s t0) ts xs j ∧
        (feed (reset s t0) ts xs k).ts_ultimate = ts j)) ∧
    (feedRet (reset (withPeaks s p u v) t0) ts xs k = feedRet (reset s t0) ts xs k ∧
      (feed (reset (withPeaks s p u v) t0) ts xs k).finished =
        (feed (reset s t0) ts xs k).finished ∧
      (feed (reset (withPeaks s p u v) t0) ts xs k).Ku = (feed (reset s t0) ts xs k).Ku ∧
      (feed (reset (withPeaks s p u v) t0) ts xs k).Pu = (feed (reset s t0) ts xs k).Pu ∧
      (feed (reset (withPeaks s p u v) t0) ts xs k).output =
        (feed (reset s t0) ts xs k).output ∧
      (2 < (feed (reset s t0) ts xs k).peak_count →
        separation (feed (reset (withPeaks s p u v) t0) ts xs k) =
          separation (feed (reset s t0) ts xs k))) := by
  obtain ⟨-, -, p2, p3, p4, p5⟩ := feed_prov s t0 ts xs k
  refine ⟨p2, fun hc => ⟨p5 (Or.inl (by omega)), p4 (Or.inr (by omega)), fun d h1 h3 => ?_⟩,
    fun ht => ⟨p3 ht, p4 (Or.inl ht)⟩, feedRet_withPeaks s t0 ts xs p u v k, ?_⟩
  · exact p2 _ (by omega) (by omega)
  · obtain ⟨p', u', v', e, ha⟩ := feed_withPeaks s t0 ts xs p u v k
    rw [e]
    refine ⟨rfl, rfl, rfl, rfl, fun hc => ?_⟩
    obtain ⟨-, -, a2, -⟩ := ha
    have e1 := a2 ((feed (reset s t0) ts xs k).peak_count - 1) (by omega) (by omega)
    have e2 := a2 ((feed (reset s t0) ts xs k).peak_count - 2) (by omega) (by omega)
    have e3 := a2 ((feed (reset s t0) ts xs k).peak_count - 3) (by omega) (by omega)
    unfold separation withPeaks
    dsimp only
    rw [e1, e2, e3]

theorem peaks_recorded_after_reset_witness :
    (feed (reset (construct (blank 0) 0) 0) everySecond risingFalling (101 + 1)).peak_type =
      1 ∧
    ∃ j, j < 101 + 1 ∧ MaxStep (reset (construct (blank 0) 0) 0) everySecond risingFalling j ∧
      (feed (reset (construct (blank 0) 0) 0) everySecond risingFalling (101 + 1)).ts_ultimate =
        everySecond j := by
  have hmax : MaxStep (reset (construct (blank 0) 0) 0) everySecond risingFalling 101 :=
    (updown_maxStep_iff (construct (blank 0) 0) 0 everySecond risingFalling 101 103
      risingFalling_updown (everySecond_paced 103) 101 (by norm_num) (by norm_num)).mpr
      (le_refl 101)
  have ht := (maxStep_effect _ everySecond risingFalling 101 hmax).1
  exact ⟨ht, ((peaks_recorded_after_reset (construct (blank 0) 0) 0 everySecond risingFalling
    (101 + 1) (fun _ => 0) 0 0).2.2.1 ht).2⟩

/-! ## Window-extremum detection: the last step classified as a maximum -/

/-- On a sequence that rises to index `p` and falls after it, with the peak at
the 101st sample or later, the ultimate-maximum timestamp after every call
past the peak's is the clock reading of the peak's call. -/
theorem updown_last_max (s : PID_Tuner) (t0 : ℕ) (ts : ℕ → ℕ) (xs : ℕ → ℚ) (p n : ℕ)
    (hud : UpDown xs p n) (hp : Paced s.sample_time t0 ts n) (h100 : 100 ≤ p) :
    ∀ k, p < k → k ≤ n → (feed (reset s t0) ts xs k).ts_ultimate = ts p := by
  intro k
  induction k with
  | zero => intro h; omega
  | succ k ih =>
    intro hpk hkn
    rcases Nat.eq_or_lt_of_le (Nat.lt_succ_iff.mp hpk) with h | h
    · rw [← h]
      exact (maxStep_effect (reset s t0) ts xs p
        ((updown_maxStep_iff s t0 ts xs p n hud hp p h100 hud.1).mpr (le_refl p))).2
    · have ih' := ih h (by omega)
      have hf := (updown_feed s t0 ts xs p n hud hp k (by omega)).1
      rw [feed_succ]
      rcases run_peak_cases (before (reset s t0) ts xs k) (ts k) with
        ⟨-, -, -, c, -⟩ | ⟨hM, -⟩ | ⟨-, -, -, c, -⟩
      · rw [c]; exact ih'
      · have := updown_isMax s t0 ts xs p n hud hp k (by omega) hf hM.2.2
        omega
      · rw [c]; exact ih'

/-- C8, amended. Window-extremum detection: for every input sequence that is
strictly increasing up to a peak index and strictly decreasing after it (of
any length, so also of length at least W+3), fed one sample per processed step
starting from `reset`: among the steps that find the window already full (the
101st step onwards), those classified as a window maximum are exactly the
steps up to and including the step of the sequence's peak; every step
classified as a window maximum sets peak type +1 and records its clock reading
as the ultimate-maximum timestamp; no step up to and including the peak's is
classified as a window minimum; and when the peak is the 101st sample or a
later one, the step of the peak is classified as a window maximum, no later
step of the sequence is, and after every later step of the sequence the
ultimate-maximum timestamp is the clock reading of the peak's step. -/
theorem window_maximum_detection (s : PID_Tuner) (t0 : ℕ) (ts : ℕ → ℕ) (xs : ℕ → ℚ)
    (p n : ℕ) (hud : UpDown xs p n) (hp : Paced s.sample_time t0 ts n) :
    (∀ k, 100 ≤ k → k < n → (MaxStep (reset s t0) ts xs k ↔ k ≤ p)) ∧
    (∀ k, MaxStep (reset s t0) ts xs k →
      (feed (reset s t0) ts xs (k + 1)).peak_type = 1 ∧
      (feed (reset s t0) ts xs (k + 1)).ts_ultimate = ts k) ∧
    (∀ k, k ≤ p → ¬ MinStep (reset s t0) ts xs k) ∧
    (100 ≤ p →
      MaxStep (reset s t0) ts xs p ∧
      (∀ k, p < k → k < n → ¬ MaxStep (reset s t0) ts xs k) ∧
      (∀ k, p < k → k ≤ n → (feed (reset s t0) ts xs k).ts_ultimate = ts p)) :=
  ⟨fun k h100 hk => updown_maxStep_iff s t0 ts xs p n hud hp k h100 hk,
   fun k h => maxStep_effect (reset s t0) ts xs k h,
   fun k hkp => updown_no_minStep s t0 ts xs p n hud hp k hkp,
   fun h100 =>
    ⟨(updown_maxStep_iff s t0 ts xs p n hud hp p h100 hud.1).mpr (le_refl p),
     fun k hpk hk hM => absurd (updown_isMax s t0 ts xs p n hud hp k hk
        (updown_feed s t0 ts xs p n hud hp k (le_of_lt hk)).1 hM.2.2) (not_le.mpr hpk),
     updown_last_max s t0 ts xs p n hud hp h100⟩⟩

theorem window_maximum_detection_witness :
    UpDown risingFalling 101 103 ∧
    Paced (construct (blank 0) 0).sample_time 0 everySecond 103 ∧
    MaxStep (reset (construct (blank 0) 0) 0) everySecond risingFalling 101 ∧
    ¬ MaxStep (reset (construct (blank 0) 0) 0) everySecond risingFalling 102 ∧
    (feed (reset (construct (blank 0) 0) 0) everySecond risingFalling 102).ts_ultimate =
      everySecond 101 ∧
    (feed (reset (construct (blank 0) 0) 0) everySecond risingFalling 103).ts_ultimate =
      everySecond 101 :=
  have h := window_maximum_detection (construct (blank 0) 0) 0 everySecond risingFalling
    101 103 risingFalling_updown (everySecond_paced 103)
  have h101 := (h.1 101 (by norm_num) (by norm_num)).mpr (le_refl 101)
  ⟨risingFalling_updown, everySecond_paced 103, h101,
   fun h102 => absurd ((h.1 102 (by norm_num) (by norm_num)).mp h102) (by norm_num),
   (h.2.1 101 h101).2,
   (h.2.2.2 (by norm_num)).2.2 103 (by norm_num) (by norm_num)⟩

end PIDTuner

namespace Sprite

/-! ## The button hit test -/

theorem wrap32_of_range (i : ℤ) (h0 : -2147483648 ≤ i) (h1 : i < 2147483648) :
    wrap32 i = i := by
  unfold wrap32
  rw [Int.emod_eq_of_lt (by omega) (by omega)]
  omega

/-- C20. Button hit test: for every button with corner (x, y), width w and
height h (of their C types `int16_t` and `uint16_t`) and every call
press(px, py, pressed), the call returns true, and isPressed() is true
afterwards, if and only if pressed is true and x ≤ px < x + w and
y ≤ py < y + h, the sums being exact; afterwards justPressed() holds iff the
new state is pressed and the state before the call was not, and
justReleased() holds iff the new state is not pressed and the state before the
call was. -/
theorem press_hit_test (b : SpriteButton) (px py : ℤ) (pressed : Bool) (now : ℕ)
    (hx : Int16 b.x) (hy : Int16 b.y) (hw : UInt16 b.width) (hh : UInt16 b.height) :
    ((press b px py pressed now).1 = true ↔
      pressed = true ∧ b.x ≤ px ∧ px < b.x + b.width ∧ b.y ≤ py ∧ py < b.y + b.height) ∧
    (isPressed (press b px py pressed now).2.1).1 = (press b px py pressed now).1 ∧
    ((justPressed (press b px py pressed now).2.1).1 = true ↔
      (press b px py pressed now).2.1.state_current = true ∧ b.state_current = false) ∧
    ((justReleased (press b px py pressed now).2.1).1 = true ↔
      (press b px py pressed now).2.1.state_current = false ∧ b.state_current = true) := by
  have e1 : wrap32 (b.x + b.width) = b.x + b.width := by
    unfold Int16 at hx
    unfold UInt16 at hw
    exact wrap32_of_range _ (by omega) (by omega)
  have e2 : wrap32 (b.y + b.height) = b.y + b.height := by
    unfold Int16 at hy
    unfold UInt16 at hh
    exact wrap32_of_range _ (by omega) (by omega)
  unfold press isPressed justPressed justReleased
  simp only [e1, e2]
  by_cases hc : (pressed && decide (px ≥ b.x) && decide (px < b.x + b.width) &&
      decide (py ≥ b.y) && decide (py < b.y + b.height)) = true
  · have hc' := hc
    simp only [Bool.and_eq_true, decide_eq_true_eq] at hc'
    obtain ⟨⟨⟨⟨h1, h2⟩, h3⟩, h4⟩, h5⟩ := hc'
    rw [if_pos hc]
    cases hb : b.state_current <;> simp [hb, h1, h2, h3, h4, h5]
  · have hc' := hc
    simp only [Bool.and_eq_true, decide_eq_true_eq, not_and] at hc'
    rw [if_neg hc]
    cases hb : b.state_current <;> simp [hb] <;> intro h1 h2 h3 h4 <;>
      exact not_lt.mp (hc' ⟨⟨⟨h1, h2⟩, h3⟩, h4⟩)

theorem press_hit_test_witness :
    Int16 demoButton.x ∧ Int16 demoButton.y ∧ UInt16 demoButton.width ∧ UInt16 demoButton.height ∧
    (press demoButton 50 30 true 1234).1 = true ∧
    (justPressed (press demoButton 50 30 true 1234).2.1).1 = true := by
  have hx : Int16 demoButton.x := by constructor <;> decide
  have hy : Int16 demoButton.y := by constructor <;> decide
  have hw : UInt16 demoButton.width := by unfold UInt16; decide
  have hh : UInt16 demoButton.height := by unfold UInt16; decide
  have h := press_hit_test demoButton 50 30 true 1234 hx hy hw hh
  have hret : (press demoButton 50 30 true 1234).1 = true :=
    h.1.mpr ⟨rfl, by decide, by decide, by decide, by decide⟩
  refine ⟨hx, hy, hw, hh, hret, h.2.2.1.mpr ⟨?_, rfl⟩⟩
  rw [← hret]
  exact h.2.1

end Sprite
